import Mathlib

/-!
Verification development for the r-ressources build-time resource compiler.

Each Rust module that the claims touch is shallowly embedded as Lean
definitions; theorems at the end of the file settle the claims.

Modelling conventions:
* Rust `String` and `PathBuf` are Lean `String`s; string primitives
  (`trim`, `split`, `to_uppercase`, ordering, …) are re-implemented over
  `List Char` so that every definition evaluates inside the kernel.
  Rust compares strings byte-lexicographically; UTF-8 byte order coincides
  with code-point order, so `List Char` lexicographic order is faithful.
* Rust's Unicode-aware `char::is_alphanumeric` / case mappings are modelled
  by their ASCII restrictions (every input appearing in the claims is ASCII).
* `i64`/`u64`/… are Lean `Int`/`Nat` with the explicit range checks that the
  source performs.
* `f64` payloads are never inspected by any claim, so a parsed float is
  represented by the literal text it was parsed from, and the float
  round-trip formatting of `format_float32`/`format_float64` is abstracted
  as the identity on that text.
* `BTreeMap` is a key-sorted association list; `HashMap`/`HashSet` are
  association lists / lists (the code only uses order-insensitive
  operations on them, except where noted).
-/

namespace RRes

deriving instance DecidableEq for Except

/-! ### String primitives (kernel-computable re-implementations) -/

/-- Split a character list at every occurrence of `sep`
(Rust `str::split(sep)` semantics, keeping empty pieces). -/
def splitChars (sep : Char) : List Char → List (List Char)
  | [] => [[]]
  | c :: cs =>
    let r := splitChars sep cs
    if c = sep then [] :: r
    else
      match r with
      | [] => [[c]]
      | piece :: rest => (c :: piece) :: rest

/-- Rust `str::split(sep)` for a one-character separator. -/
def splitOnChar (sep : Char) (s : String) : List String :=
  (splitChars sep s.toList).map String.mk

/-- Rust `str::trim` (whitespace from both ends). -/
def trimS (s : String) : String :=
  String.mk (((s.toList.dropWhile Char.isWhitespace).reverse.dropWhile
    Char.isWhitespace).reverse)

/-- Rust `str::contains(char)`. -/
def containsChar (s : String) (c : Char) : Bool :=
  s.toList.any (fun d => d = c)

/-- Number of occurrences of a character (`s.matches(c).count()`). -/
def countChar (s : String) (c : Char) : Nat :=
  (s.toList.filter (fun d => d = c)).length

/-- Rust `str::to_uppercase`, restricted to ASCII. -/
def toUpperS (s : String) : String :=
  String.mk (s.toList.map Char.toUpper)

/-- Rust `str::to_ascii_lowercase` / `str::to_lowercase`, restricted to
ASCII. -/
def toLowerS (s : String) : String :=
  String.mk (s.toList.map Char.toLower)

/-- Lexicographic strict order on character lists: Rust's `str` ordering. -/
def charsLt : List Char → List Char → Bool
  | [], [] => false
  | [], _ :: _ => true
  | _ :: _, [] => false
  | a :: as, b :: bs =>
    if a < b then true
    else if b < a then false
    else charsLt as bs

/-- Rust `String` ordering. -/
def strLt (a b : String) : Bool :=
  charsLt a.toList b.toList

/-- `" ".repeat(indent)`. -/
def spaces (n : Nat) : String :=
  String.mk (List.replicate n ' ')

/-- Ordered-insert of a string into a list (ascending, stable). -/
def insertSortedString (x : String) : List String → List String
  | [] => [x]
  | y :: ys => if strLt x y then x :: y :: ys else y :: insertSortedString x ys

/-- `Vec::sort` for strings (the result is the ascending reordering). -/
def sortStrings (l : List String) : List String :=
  l.foldr insertSortedString []

/-! ### generator/utils.rs -/

/-- `sanitize_identifier`: non-alphanumeric, non-underscore characters become
underscores (Rust checks Unicode alphanumerics; ASCII restriction here). -/
def sanitizeIdentifier (s : String) : String :=
  String.mk (s.toList.map (fun c => if c.isAlphanum ∨ c = '_' then c else '_'))

/-! ### generator/ir/model.rs -/

/-- `ResourceKey` from generator/ir/model.rs. -/
structure ResourceKey where
  «namespace» : List String
  name : String
deriving DecidableEq, Repr

/-- Lexicographic strict order on namespace lists, mirroring `Vec<String>`'s
derived `Ord` used by the `BTreeMap` in `ResourceGraph`. -/
def nsLt : List String → List String → Bool
  | [], [] => false
  | [], _ :: _ => true
  | _ :: _, [] => false
  | a :: as, b :: bs =>
    if strLt a b then true
    else if strLt b a then false
    else nsLt as bs

/-- The derived `Ord` on `ResourceKey`: `namespace` first, then `name`. -/
def keyLt (a b : ResourceKey) : Bool :=
  if nsLt a.namespace b.namespace then true
  else if nsLt b.namespace a.namespace then false
  else strLt a.name b.name

/-- `ResourceKey::from_path`: split on `/`, drop empty parts, last part is the
name, the rest the namespace. -/
def ResourceKey.fromPath (path : String) : ResourceKey :=
  let parts := (splitOnChar '/' path).filter (fun part => ¬part.isEmpty)
  { «namespace» := parts.dropLast, name := (parts.getLast?).getD "" }

/-- `ResourceKey::full_name`. -/
def ResourceKey.fullName (k : ResourceKey) : String :=
  if k.namespace.isEmpty then k.name
  else String.intercalate "/" k.namespace ++ "/" ++ k.name

/-- `ResourceKind` from generator/ir/model.rs. -/
inductive ResourceKind where
  | string
  | number
  | bool
  | color
  | url
  | dimension
  | array (elem : String)
  | template
  | custom (name : String)
deriving DecidableEq, Repr

/-- `NumberType` from generator/ir/model.rs. -/
inductive NumberType where
  | i8 | i16 | i32 | i64 | u8 | u16 | u32 | u64 | f32 | f64
deriving DecidableEq, Repr

/-- `NumberType::as_str`. -/
def NumberType.asStr : NumberType → String
  | .i8 => "i8"
  | .i16 => "i16"
  | .i32 => "i32"
  | .i64 => "i64"
  | .u8 => "u8"
  | .u16 => "u16"
  | .u32 => "u32"
  | .u64 => "u64"
  | .f32 => "f32"
  | .f64 => "f64"

/-- `NumberValue` from generator/ir/model.rs. The `float` payload keeps the
source literal (the claims only inspect which variant was produced, never the
`f64` bits). -/
inductive NumberValue where
  | int (i : Int)
  | float (literal : String)
  | bigDecimal (raw : String)
  | typed (literal : String) (ty : NumberType)
deriving DecidableEq, Repr

/-- `TemplateParamValue` from generator/ir/model.rs. -/
inductive TemplateParamValue where
  | string
  | number (explicitType : Option String)
  | bool
  | color
deriving DecidableEq, Repr

/-- `TemplateParam` from generator/ir/model.rs. -/
structure TemplateParam where
  name : String
  value : TemplateParamValue
deriving DecidableEq, Repr

/-- `ResourceValue` from generator/ir/model.rs (named `IrResourceValue` to
distinguish it from codegen/types.rs's `ResourceValue`). -/
inductive IrResourceValue where
  | string (s : String)
  | number (n : NumberValue)
  | bool (b : Bool)
  | color (c : String)
  | template (text : String) (params : List TemplateParam)
deriving DecidableEq, Repr

/-- `ResourceOrigin` from generator/ir/model.rs (`file` is the path's display
string). -/
structure ResourceOrigin where
  file : String
  line : Option Nat
  profile : Option String
  isTest : Bool
deriving DecidableEq, Repr

/-- `ResourceOrigin::new`. -/
def ResourceOrigin.new (file : String) (isTest : Bool) : ResourceOrigin :=
  { file := file, line := none, profile := none, isTest := isTest }

/-- `ResourceNode` from generator/ir/model.rs. -/
structure ResourceNode where
  kind : ResourceKind
  value : IrResourceValue
  origin : ResourceOrigin
deriving DecidableEq, Repr

/-- `ResourceGraph`'s `BTreeMap<ResourceKey, Vec<ResourceNode>>`, as a
key-sorted association list. -/
abbrev ResourceGraph := List (ResourceKey × List ResourceNode)

/-- The empty graph (`ResourceGraph::default`). -/
def ResourceGraph.empty : ResourceGraph := []

/-- `BTreeMap::contains_key`. -/
def ResourceGraph.containsKey (g : ResourceGraph) (k : ResourceKey) : Bool :=
  g.any (fun e => e.1 = k)

/-- `BTreeMap::get`. -/
def ResourceGraph.lookup (g : ResourceGraph) (k : ResourceKey) :
    Option (List ResourceNode) :=
  match g with
  | [] => none
  | (k', ns) :: rest => if k' = k then some ns else ResourceGraph.lookup rest k

/-- `self.nodes.entry(key).or_default().push(node)`: append to the key's
vector, creating it at the sorted position if absent. -/
def insertGo : List (ResourceKey × List ResourceNode) → ResourceKey →
    ResourceNode → List (ResourceKey × List ResourceNode)
  | [], k, n => [(k, [n])]
  | (k', ns) :: rest, k, n =>
    if k = k' then (k', ns ++ [n]) :: rest
    else if keyLt k k' then (k, [n]) :: (k', ns) :: rest
    else (k', ns) :: insertGo rest k n

/-- `ResourceGraph::insert`: returns whether the key was already present, and
the updated graph. -/
def ResourceGraph.insert (g : ResourceGraph) (k : ResourceKey)
    (n : ResourceNode) : Bool × ResourceGraph :=
  (g.containsKey k, insertGo g k n)

/-- `ResourceGraph::get`: the first (primary) node for a key. -/
def ResourceGraph.get (g : ResourceGraph) (k : ResourceKey) :
    Option ResourceNode :=
  (g.lookup k).bind List.head?

/-- `ResourceGraph::get_all`. -/
def ResourceGraph.getAll (g : ResourceGraph) (k : ResourceKey) :
    Option (List ResourceNode) :=
  g.lookup k

/-- `ResourceGraph::has_duplicates`. -/
def ResourceGraph.hasDuplicates (g : ResourceGraph) (k : ResourceKey) : Bool :=
  match g.lookup k with
  | some ns => ns.length > 1
  | none => false

/-- A graph built by a sequence of inserts starting from the empty graph. -/
def buildGraph (ops : List (ResourceKey × ResourceNode)) : ResourceGraph :=
  ops.foldl (fun g op => (g.insert op.1 op.2).2) ResourceGraph.empty

/-- Keys pairwise sorted by `keyLt` (the `BTreeMap` invariant). -/
def SortedKeys (g : ResourceGraph) : Prop :=
  List.Pairwise (fun a b => keyLt a.1 b.1 = true) g

/-! ### generator/analysis/mod.rs -/

/-- `AnalysisError`. -/
structure AnalysisError where
  message : String
  key : Option ResourceKey
deriving DecidableEq, Repr

/-- `AnalysisWarning`. -/
structure AnalysisWarning where
  message : String
  key : Option ResourceKey
deriving DecidableEq, Repr

/-- `AnalysisResult`. -/
structure AnalysisResult where
  warnings : List AnalysisWarning
  errors : List AnalysisError
deriving DecidableEq, Repr

/-- `ValidationOptions`. -/
structure ValidationOptions where
  treatDuplicatesAsErrors : Bool
deriving DecidableEq, Repr

/-- The duplicate message built by `validate_with_options` for one key with
its (more than one) nodes: names the key, the definition count, the primary
file and the remaining files. -/
def duplicateMessage (key : ResourceKey) (nodes : List ResourceNode) : String :=
  match nodes.map (fun n => n.origin.file) with
  | [] => ""
  | primaryFile :: duplicateFiles =>
    "Duplicate resource key '" ++ key.fullName ++ "' defined in " ++
      toString nodes.length ++ " files. Using '" ++ primaryFile ++
      "' (first occurrence). Duplicates in: " ++
      String.intercalate ", " duplicateFiles

/-- `validate_with_options`: one message per key with more than one node,
as an error when `treat_duplicates_as_errors` is set, as a warning
otherwise. -/
def validateWithOptions (g : ResourceGraph) (options : ValidationOptions) :
    AnalysisResult :=
  g.foldl
    (fun result entry =>
      let (key, nodes) := entry
      if nodes.length > 1 then
        let message := duplicateMessage key nodes
        if options.treatDuplicatesAsErrors then
          { result with errors := result.errors ++ [⟨message, some key⟩] }
        else
          { result with warnings := result.warnings ++ [⟨message, some key⟩] }
      else result)
    ⟨[], []⟩

/-- `validate` (default options). -/
def validate (g : ResourceGraph) : AnalysisResult :=
  validateWithOptions g ⟨false⟩

/-! ### generator/ir/types/number.rs -/

/-- Digits of a character list read as a natural number (helper for the
embeddings of Rust's `FromStr` integer parsers). -/
def digitsToNat (ds : List Char) : Nat :=
  ds.foldl (fun n c => n * 10 + (c.toNat - '0'.toNat)) 0

/-- Rust `u64::from_str`-style unsigned parse (optional `+`, then at least
one digit); the numeric range is checked by each caller per target type. -/
def parseUnsigned (s : String) : Option Nat :=
  match s.toList with
  | [] => none
  | c :: rest =>
    if c = '+' then
      if ¬rest.isEmpty ∧ rest.all Char.isDigit then some (digitsToNat rest)
      else none
    else if (c :: rest).all Char.isDigit then some (digitsToNat (c :: rest))
    else none

/-- Rust `i64::from_str`-style signed parse (optional `+`/`-`, then at least
one digit); the numeric range is checked by each caller per target type. -/
def parseSigned (s : String) : Option Int :=
  match s.toList with
  | [] => none
  | c :: rest =>
    if c = '-' then
      if ¬rest.isEmpty ∧ rest.all Char.isDigit then
        some (-(digitsToNat rest : Int))
      else none
    else if c = '+' then
      if ¬rest.isEmpty ∧ rest.all Char.isDigit then
        some ((digitsToNat rest : Int))
      else none
    else if (c :: rest).all Char.isDigit then
      some ((digitsToNat (c :: rest) : Int))
    else none

/-- `literal.parse::<i64>()` (syntax plus 64-bit signed range). -/
def parseI64 (s : String) : Option Int :=
  (parseSigned s).bind fun v =>
    if -(2 ^ 63) ≤ v ∧ v < 2 ^ 63 then some v else none

/-- `looks_like_integer`: no `.`, `e` or `E` in the literal. -/
def looksLikeInteger (literal : String) : Bool :=
  ¬(containsChar literal '.' ∨ containsChar literal 'e' ∨
    containsChar literal 'E')

/-- The loop of `count_significant_digits`: digits count except inside an
exponent; `e`/`E` enters the exponent; every other character is skipped. -/
def countDigitsGo : List Char → Bool → Nat → Nat
  | [], _, n => n
  | c :: rest, inExponent, n =>
    if c.isDigit then
      countDigitsGo rest inExponent (if inExponent then n else n + 1)
    else if c = 'e' ∨ c = 'E' then countDigitsGo rest true n
    else countDigitsGo rest inExponent n

/-- `count_significant_digits`: counts every mantissa digit of the literal
(including leading and trailing zeros). -/
def countSignificantDigits (literal : String) : Nat :=
  countDigitsGo literal.toList false 0

/-- `requires_big_decimal_precision`. -/
def requiresBigDecimalPrecision (literal : String) : Bool :=
  countSignificantDigits literal > 15

/-- Modelled from the spec: the standard count of significant decimal digits
of a literal — the mantissa's digits with the leading zeros dropped (leading
zeros are never significant, trailing fraction zeros are). Stated only to
compare the claim's words against `count_significant_digits`, which counts
every mantissa digit. -/
def specSignificantDigits (s : String) : Nat :=
  let mantissa := s.toList.takeWhile (fun c => ¬(c = 'e' ∨ c = 'E'))
  ((mantissa.filter Char.isDigit).dropWhile (fun c => c = '0')).length

/-- Syntactic validity of a decimal literal: optional sign, a mantissa with
at least one digit and at most one dot, and an optional exponent. This is the
embedding of both `bigdecimal::BigDecimal::from_str(..).is_ok()` and
`f64::from_str(..).is_ok()` (the latter also accepts `inf`/`NaN` spellings,
which no claim involves). -/
def isValidDecimalLit (s : String) : Bool :=
  let afterSign :=
    match s.toList with
    | c :: rest => if c = '+' ∨ c = '-' then rest else c :: rest
    | [] => []
  let intPart := afterSign.takeWhile Char.isDigit
  let afterInt := afterSign.dropWhile Char.isDigit
  let (fracPart, afterMantissa) :=
    match afterInt with
    | '.' :: rest => (rest.takeWhile Char.isDigit, rest.dropWhile Char.isDigit)
    | other => ([], other)
  if intPart.isEmpty ∧ fracPart.isEmpty then false
  else
    match afterMantissa with
    | [] => true
    | e :: rest =>
      if e = 'e' ∨ e = 'E' then
        let expDigits :=
          match rest with
          | c :: rest' => if c = '+' ∨ c = '-' then rest' else c :: rest'
          | [] => []
        ¬expDigits.isEmpty ∧ expDigits.all Char.isDigit
      else false

/-- `parse_big_decimal`: on a valid literal, `BigDecimal(literal)` with the
original text; otherwise the `Invalid number literal` error. -/
def parseBigDecimal (literal : String) : Except String NumberValue :=
  if isValidDecimalLit literal then .ok (.bigDecimal literal)
  else .error ("Invalid number literal '" ++ literal ++ "'")

/-- The inclusive ranges of the explicit integer number types. -/
def NumberType.intRange : NumberType → Option (Int × Int)
  | .i8 => some (-128, 127)
  | .i16 => some (-32768, 32767)
  | .i32 => some (-2147483648, 2147483647)
  | .i64 => some (-(2 ^ 63), 2 ^ 63 - 1)
  | .u8 => some (0, 255)
  | .u16 => some (0, 65535)
  | .u32 => some (0, 4294967295)
  | .u64 => some (0, 2 ^ 64 - 1)
  | _ => none

/-- `trimmed.parse::<iN>()` / `parse::<uN>()` for an explicit integer type:
syntax check (unsigned types refuse `-`), then the type's range. -/
def parseIntLiteralAs (ty : NumberType) (trimmed : String) : Option Int :=
  match ty.intRange with
  | none => none
  | some (lo, hi) =>
    let parsed : Option Int :=
      match ty with
      | .u8 | .u16 | .u32 | .u64 => (parseUnsigned trimmed).map Int.ofNat
      | _ => parseSigned trimmed
    parsed.bind fun v => if lo ≤ v ∧ v ≤ hi then some v else none

/-- `parse_explicit_number` from generator/ir/types/number.rs. The float
round-trip formatting (`parse::<f32>()` then `to_string`) is abstracted as
the identity on the trimmed literal text (no claim inspects it). -/
def parseExplicitNumber (literal : String) (typeHint : String) :
    Except String NumberValue :=
  let typeName := toLowerS (trimS typeHint)
  let ty? : Option NumberType :=
    if typeName = "i8" then some .i8
    else if typeName = "i16" then some .i16
    else if typeName = "i32" then some .i32
    else if typeName = "i64" then some .i64
    else if typeName = "u8" then some .u8
    else if typeName = "u16" then some .u16
    else if typeName = "u32" then some .u32
    else if typeName = "u64" then some .u64
    else if typeName = "f32" then some .f32
    else if typeName = "f64" then some .f64
    else none
  if typeName = "bigdecimal" then parseBigDecimal literal
  else
    match ty? with
    | none => .error ("Unsupported number type '" ++ typeName ++ "'")
    | some ty =>
      let trimmed := trimS literal
      match ty with
      | .f32 =>
        if isValidDecimalLit trimmed then .ok (.typed trimmed .f32)
        else .error ("'" ++ trimmed ++ "' is not a valid f32 literal")
      | .f64 =>
        if isValidDecimalLit trimmed then .ok (.typed trimmed .f64)
        else .error ("'" ++ trimmed ++ "' is not a valid f64 literal")
      | _ =>
        match parseIntLiteralAs ty trimmed with
        | some v => .ok (.typed (toString v) ty)
        | none =>
          .error ("'" ++ trimmed ++ "' does not fit in " ++ ty.asStr)

/-- `parse_number_value` from generator/ir/types/number.rs. -/
def parseNumberValue (text : String) (explicitType : Option String) :
    Except String NumberValue :=
  let literal := trimS text
  if literal.isEmpty then .error "Number literal cannot be empty"
  else
    match explicitType with
    | some typeHint => parseExplicitNumber literal typeHint
    | none =>
      if looksLikeInteger literal then
        match parseI64 literal with
        | some v => .ok (.int v)
        | none => parseBigDecimal literal
      else if requiresBigDecimalPrecision literal then
        parseBigDecimal literal
      else if isValidDecimalLit literal then .ok (.float literal)
      else parseBigDecimal literal

/-- `format_float` (generator/ir/types/number.rs), applied to the literal text
that stands in for the `f64` value. -/
def formatFloatText (s : String) : String :=
  if containsChar s '.' ∨ containsChar s 'e' ∨ containsChar s 'E' then s
  else s ++ ".0"

/-- `escape_literal`: escape backslashes and double quotes. -/
def escapeLiteral (literal : String) : String :=
  String.mk (literal.toList.flatMap fun c =>
    if c = '\\' then ['\\', '\\']
    else if c = '"' then ['\\', '"']
    else [c])

/-- Rust `str::escape_debug`, restricted to the escapes that can arise from
the claims' printable-ASCII inputs (quote, backslash, newline, tab, carriage
return; Rust additionally escapes other control and some Unicode characters,
which no claim involves). -/
def escapeDebug (s : String) : String :=
  String.mk (s.toList.flatMap fun c =>
    if c = '\\' then ['\\', '\\']
    else if c = '"' then ['\\', '"']
    else if c = '\n' then ['\\', 'n']
    else if c = '\t' then ['\\', 't']
    else if c = '\r' then ['\\', 'r']
    else [c])

/-! ### generator/parsing/ast.rs -/

/-- `ResourceKind` from generator/parsing/ast.rs (the `Template` variant is
referenced by reader/handlers.rs and ir/builder.rs and is included here). -/
inductive ParsedKind where
  | string
  | number
  | bool
  | color
  | template
deriving DecidableEq, Repr

/-- `ScalarValue` from generator/parsing/ast.rs. -/
inductive ScalarValue where
  | text (s : String)
  | number (value : String) (explicitType : Option String)
  | bool (b : Bool)
  | color (s : String)
deriving DecidableEq, Repr

/-- `ParsedResource` from generator/parsing/ast.rs. -/
structure ParsedResource where
  name : String
  kind : ParsedKind
  value : ScalarValue
deriving DecidableEq, Repr

/-- `ParsedResourceFile` from generator/parsing/ast.rs. -/
structure ParsedResourceFile where
  path : String
  isTest : Bool
  resources : List ParsedResource
deriving DecidableEq, Repr

/-! ### generator/ir/types/{string,number,bool,color}.rs handlers -/

/-- One entry of the `TypeRegistry`: the four trait methods that the embedded
pipeline uses. -/
structure TypeHandler where
  name : String
  resourceKind : ResourceKind
  buildNode : ParsedResource → ResourceOrigin → Option ResourceNode
  emitRust : ResourceKey → ResourceNode → Nat → Option String

/-- `StringType::build_node`. -/
def stringBuildNode (parsed : ParsedResource) (origin : ResourceOrigin) :
    Option ResourceNode :=
  match parsed.value with
  | .text value => some ⟨.string, .string value, origin⟩
  | _ => none

/-- `StringType::emit_rust`. -/
def stringEmitRust (key : ResourceKey) (node : ResourceNode) (indent : Nat) :
    Option String :=
  match node.value with
  | .string value =>
    let pad := spaces indent
    let constName := toUpperS (sanitizeIdentifier key.name)
    some (pad ++ "pub const " ++ constName ++ ": &str = \"" ++
      escapeDebug value ++ "\";\n")
  | _ => none

/-- `NumberTypeHandler::build_node`: a failed parse is discarded with
`.ok()?`, yielding `None`. -/
def numberBuildNode (parsed : ParsedResource) (origin : ResourceOrigin) :
    Option ResourceNode :=
  match parsed.value with
  | .number value explicitType =>
    match parseNumberValue value explicitType with
    | .ok numberValue => some ⟨.number, .number numberValue, origin⟩
    | .error _ => none
  | _ => none

/-- `NumberTypeHandler::emit_rust`. -/
def numberEmitRust (key : ResourceKey) (node : ResourceNode) (indent : Nat) :
    Option String :=
  match node.value with
  | .number numberValue =>
    let pad := spaces indent
    let constName := toUpperS (sanitizeIdentifier key.name)
    some (match numberValue with
      | .int i =>
        pad ++ "pub const " ++ constName ++ ": i64 = " ++ toString i ++ ";\n"
      | .float literal =>
        pad ++ "pub const " ++ constName ++ ": f64 = " ++
          formatFloatText literal ++ ";\n"
      | .bigDecimal raw =>
        pad ++ "pub static " ++ constName ++
          ": std::sync::LazyLock<r_resources::BigDecimal> = std::sync::LazyLock::new(|| \x7b\n" ++
          pad ++ "    r_resources::BigDecimal::from_str(\"" ++
          escapeLiteral raw ++ "\").expect(\"valid decimal literal\")\n" ++
          pad ++ "\x7d);\n"
      | .typed literal ty =>
        pad ++ "pub const " ++ constName ++ ": " ++ ty.asStr ++ " = " ++
          literal ++ ";\n")
  | _ => none

/-- `BoolType::build_node`. -/
def boolBuildNode (parsed : ParsedResource) (origin : ResourceOrigin) :
    Option ResourceNode :=
  match parsed.value with
  | .bool value => some ⟨.bool, .bool value, origin⟩
  | _ => none

/-- `BoolType::emit_rust`. -/
def boolEmitRust (key : ResourceKey) (node : ResourceNode) (indent : Nat) :
    Option String :=
  match node.value with
  | .bool value =>
    let pad := spaces indent
    let constName := toUpperS (sanitizeIdentifier key.name)
    some (pad ++ "pub const " ++ constName ++ ": bool = " ++
      (if value then "true" else "false") ++ ";\n")
  | _ => none

/-- `ColorType::build_node`. -/
def colorBuildNode (parsed : ParsedResource) (origin : ResourceOrigin) :
    Option ResourceNode :=
  match parsed.value with
  | .color value => some ⟨.color, .color value, origin⟩
  | _ => none

/-- `ColorType::emit_rust`. -/
def colorEmitRust (key : ResourceKey) (node : ResourceNode) (indent : Nat) :
    Option String :=
  match node.value with
  | .color value =>
    let pad := spaces indent
    let constName := toUpperS (sanitizeIdentifier key.name)
    some (pad ++ "pub const " ++ constName ++ ": &str = \"" ++
      escapeDebug value ++ "\";\n")
  | _ => none

/-- The four handlers of `TypeRegistry::default`, in registration order. -/
def defaultRegistry : List TypeHandler :=
  [⟨"string", .string, stringBuildNode, stringEmitRust⟩,
   ⟨"number", .number, numberBuildNode, numberEmitRust⟩,
   ⟨"bool", .bool, boolBuildNode, boolEmitRust⟩,
   ⟨"color", .color, colorBuildNode, colorEmitRust⟩]

/-- `TypeRegistry::find_by_name`. -/
def findByName (registry : List TypeHandler) (name : String) :
    Option TypeHandler :=
  registry.find? (fun t => t.name = name)

/-! ### generator/ir/builder.rs -/

/-- The tag-name mapping of `ResourceGraphBuilder::ingest_file`. -/
def parsedKindName : ParsedKind → String
  | .string => "string"
  | .number => "number"
  | .bool => "bool"
  | .color => "color"
  | .template => "template"

/-- One resource of `ingest_file`: an unknown type name or a `build_node`
failure is skipped silently; otherwise the node is inserted. -/
def ingestResource (g : ResourceGraph) (file : ParsedResourceFile)
    (resource : ParsedResource) : ResourceGraph :=
  let key := ResourceKey.fromPath resource.name
  let origin := ResourceOrigin.new file.path file.isTest
  match findByName defaultRegistry (parsedKindName resource.kind) with
  | none => g
  | some ty =>
    match ty.buildNode resource origin with
    | none => g
    | some node => (g.insert key node).2

/-- `ResourceGraphBuilder::ingest_file`. -/
def ingestFile (g : ResourceGraph) (file : ParsedResourceFile) :
    ResourceGraph :=
  file.resources.foldl (fun g r => ingestResource g file r) g

/-- `ResourceGraphBuilder::from_parsed_files`. -/
def fromParsedFiles (files : List ParsedResourceFile) : ResourceGraph :=
  files.foldl ingestFile ResourceGraph.empty

/-! ### generator/generation/flat/tree.rs -/

mutual
/-- `NamespaceNode` from generation/flat/tree.rs (children as the sorted
association forest of the `BTreeMap`). -/
inductive NsTree where
  | mk (children : NsForest) (resourceKeys : List ResourceKey)

/-- The children map of a `NamespaceNode`. -/
inductive NsForest where
  | nil
  | cons (name : String) (tree : NsTree) (rest : NsForest)
end

/-- `children.get(name)`. -/
def getChildForest : NsForest → String → Option NsTree
  | .nil, _ => none
  | .cons n t rest, p => if n = p then some t else getChildForest rest p

/-- `children.insert(name, tree)` at the sorted position (replacing an
existing entry in place). -/
def setChildForest : NsForest → String → NsTree → NsForest
  | .nil, p, t => .cons p t .nil
  | .cons n c rest, p, t =>
    if n = p then .cons n t rest
    else if strLt p n then .cons p t (.cons n c rest)
    else .cons n c (setChildForest rest p t)

/-- The descent of `build_namespace_tree`'s inner loop: walk the key's
namespace with `children.entry(part).or_default()` and push the key at the
final node. -/
def addKeyAt : NsTree → List String → ResourceKey → NsTree
  | .mk children keys, [], k => .mk children (keys ++ [k])
  | .mk children keys, p :: rest, k =>
    let child := (getChildForest children p).getD (.mk .nil [])
    .mk (setChildForest children p (addKeyAt child rest k)) keys

/-- `build_namespace_tree`. -/
def buildNamespaceTree (g : ResourceGraph) : NsTree :=
  g.foldl (fun t e => addKeyAt t e.1.namespace e.1) (.mk .nil [])

/-- Stable insert for `sort_by(|a, b| a.name.cmp(&b.name))`. -/
def insertKeyByName (k : ResourceKey) : List ResourceKey → List ResourceKey
  | [] => [k]
  | y :: ys =>
    if strLt y.name k.name then y :: insertKeyByName k ys else k :: y :: ys

/-- `resource_keys.sort_by(|a, b| a.name.cmp(&b.name))` (stable). -/
def sortKeysByName (keys : List ResourceKey) : List ResourceKey :=
  keys.foldr insertKeyByName []

mutual
/-- `sort_namespace_tree`. -/
def sortNsTree : NsTree → NsTree
  | .mk children keys => .mk (sortNsForest children) (sortKeysByName keys)

/-- `sort_namespace_tree` over the children map. -/
def sortNsForest : NsForest → NsForest
  | .nil => .nil
  | .cons n t rest => .cons n (sortNsTree t) (sortNsForest rest)
end

/-! ### generator/generation/flat/emitter.rs -/

/-- `note.replace('"', "\\\"")`. -/
def escapeQuotes (s : String) : String :=
  String.mk (s.toList.flatMap fun c =>
    if c = '"' then ['\\', '"'] else [c])

/-- `HashMap::get` on the duplicate-info map. -/
def lookupDupInfo : List (ResourceKey × String) → ResourceKey → Option String
  | [], _ => none
  | (k, m) :: rest, key =>
    if k = key then some m else lookupDupInfo rest key

/-- `HashMap::insert` (replace an existing binding). -/
def upsertDupInfo : List (ResourceKey × String) → ResourceKey → String →
    List (ResourceKey × String)
  | [], key, m => [(key, m)]
  | (k, m') :: rest, key, m =>
    if k = key then (k, m) :: rest else (k, m') :: upsertDupInfo rest key m

/-- The duplicate-info map of `generate_r_module`: each warning that names a
key contributes its message. -/
def dupInfoOfWarnings (warnings : List AnalysisWarning) :
    List (ResourceKey × String) :=
  warnings.foldl
    (fun m w =>
      match w.key with
      | some k => upsertDupInfo m k w.message
      | none => m)
    []

/-- `emit_resource`: the duplicate annotation (when a warning message exists
for the key, truncated past 100 bytes), then the first matching handler's
emitted code. -/
def emitResource (key : ResourceKey) (node : ResourceNode)
    (warningMessage : Option String) (indent : Nat) : String :=
  let pad := spaces indent
  let annotation :=
    match warningMessage with
    | some warning =>
      let note :=
        if warning.length > 100 then
          String.mk (warning.toList.take 100) ++ "..."
        else warning
      pad ++ "#[deprecated(note = \"" ++ escapeQuotes note ++ "\")]\n" ++
        pad ++
        "#[allow(dead_code)] // WARNING: Duplicate resource - only first definition is used\n"
    | none => ""
  let emitted :=
    match defaultRegistry.find? (fun t => t.resourceKind = node.kind) with
    | some ty => (ty.emitRust key node indent).getD ""
    | none => ""
  annotation ++ emitted

/-- The per-key part of `emit_namespace_tree`: only the first node of
`get_all` is emitted; the remaining duplicates are never emitted. -/
def emitKeyCode (g : ResourceGraph) (dupInfo : List (ResourceKey × String))
    (key : ResourceKey) (indent : Nat) : String :=
  match g.getAll key with
  | none => ""
  | some allNodes =>
    match allNodes with
    | [] => ""
    | firstNode :: _ =>
      emitResource key firstNode (lookupDupInfo dupInfo key) indent

mutual
/-- `emit_namespace_tree`. -/
def emitNsTree (g : ResourceGraph) (dupInfo : List (ResourceKey × String)) :
    NsTree → Nat → String
  | .mk children keys, indent =>
    emitNsForest g dupInfo children indent ++
      keys.foldl (fun acc key => acc ++ emitKeyCode g dupInfo key indent) ""

/-- The child-module loop of `emit_namespace_tree`. -/
def emitNsForest (g : ResourceGraph) (dupInfo : List (ResourceKey × String)) :
    NsForest → Nat → String
  | .nil, _ => ""
  | .cons name child rest, indent =>
    spaces indent ++ "pub mod " ++ sanitizeIdentifier name ++ " \x7b\n" ++
      emitNsTree g dupInfo child (indent + 4) ++
      spaces indent ++ "\x7d\n" ++
      emitNsForest g dupInfo rest indent
end

/-- `generate_r_module` from generation/flat/emitter.rs. -/
def generateRModule (g : ResourceGraph) (warnings : List AnalysisWarning) :
    String :=
  let tree := sortNsTree (buildNamespaceTree g)
  let dupInfo := dupInfoOfWarnings warnings
  "\npub mod r \x7b\n" ++ emitNsTree g dupInfo tree 4 ++ "\x7d\n"

/-! ### codegen/types.rs -/

/-- `InterpolationPart` from codegen/types.rs. -/
inductive InterpolationPart where
  | text (s : String)
  | reference (resourceType : String) (key : String)
deriving DecidableEq, Repr

/-- `TemplateParameterType` from codegen/types.rs. -/
inductive TemplateParameterType where
  | string | int | float | bool
deriving DecidableEq, Repr

/-- `TemplateParameter` from codegen/types.rs. -/
structure CgTemplateParameter where
  name : String
  paramType : TemplateParameterType
deriving DecidableEq, Repr

/-- `Template` from codegen/types.rs. -/
structure CgTemplate where
  template : String
  parameters : List CgTemplateParameter
deriving DecidableEq, Repr

/-- `ResourceValue` from codegen/types.rs (`Int`/`Float` payloads keep the
conventions stated at the top of the file). -/
inductive CgResourceValue where
  | string (s : String)
  | int (i : Int)
  | float (literal : String)
  | bool (b : Bool)
  | color (s : String)
  | url (s : String)
  | dimension (s : String)
  | stringArray (items : List String)
  | intArray (items : List Int)
  | floatArray (items : List String)
  | reference (resourceType : String) (key : String)
  | interpolatedString (parts : List InterpolationPart)
  | template (t : CgTemplate)
deriving DecidableEq, Repr

/-- A reference-key character: alphanumeric, underscore or slash
(`parse_string_value`'s scan; Rust checks Unicode alphanumerics, modelled on
ASCII). -/
def isRefKeyChar (c : Char) : Bool :=
  c.isAlphanum ∨ c = '_' ∨ c = '/'

/-- `s[1..].split_once('/')`. -/
def splitFirstSlash (cs : List Char) : Option (List Char × List Char) :=
  match cs.findIdx? (fun c => c = '/') with
  | none => none
  | some i => some (cs.take i, cs.drop (i + 1))

/-- The interpolation scan of `parse_string_value`, on the text that remains
from the current position. The `fuel` argument only drives the structural
recursion: every step strictly shortens the remaining text, so the caller's
`cs.length + 1` can never run out (the `0` case is unreachable). -/
def interpLoopF : Nat → List Char → List InterpolationPart
  | 0, _ => []
  | fuel + 1, cs =>
    match cs.findIdx? (fun c => c = '@') with
    | none => if cs.isEmpty then [] else [.text (String.mk cs)]
    | some atPos =>
      let textBefore := cs.take atPos
      let afterAt := cs.drop (atPos + 1)
      let pre : List InterpolationPart :=
        if textBefore.isEmpty then [] else [.text (String.mk textBefore)]
      match afterAt.findIdx? (fun c => c = '/') with
      | none => pre ++ [.text "@"] ++ interpLoopF fuel afterAt
      | some slashPos =>
        let resourceType := afterAt.take slashPos
        let afterSlash := afterAt.drop (slashPos + 1)
        let refEnd :=
          (afterSlash.findIdx? (fun c => ¬isRefKeyChar c)).getD
            afterSlash.length
        let keySlice := afterSlash.take refEnd
        let hadTrailingSlash : Bool :=
          match keySlice.getLast? with
          | some c => c = '/'
          | none => false
        let key := if hadTrailingSlash then keySlice.dropLast else keySlice
        let consumed := if hadTrailingSlash then refEnd - 1 else refEnd
        pre ++ [.reference (String.mk resourceType) (String.mk key)] ++
          interpLoopF fuel (afterSlash.drop consumed)

/-- The `while current_pos < bytes.len()` loop of `parse_string_value`. -/
def interpLoop (cs : List Char) : List InterpolationPart :=
  interpLoopF (cs.length + 1) cs

/-- `ResourceValue::parse_string_value` from codegen/types.rs. -/
def parseStringValue (s : String) : CgResourceValue :=
  let cs := s.toList
  let startsAt : Bool := match cs with | c :: _ => c = '@' | [] => false
  let pureRef : Option CgResourceValue :=
    if startsAt ∧ ¬containsChar s ' ' ∧ countChar s '@' = 1 then
      match splitFirstSlash (cs.drop 1) with
      | some (resourceType, key) =>
        some (.reference (String.mk resourceType) (String.mk key))
      | none => none
    else none
  match pureRef with
  | some v => v
  | none =>
    if containsChar s '@' then
      let parts := interpLoop cs
      if ¬parts.isEmpty then .interpolatedString parts else .string s
    else .string s

/-! ### codegen/generator/basic.rs (reference resolution) -/

/-- The `all_resources` map: resource type name to its `(name, value)`
list. -/
def ResMap := List (String × List (String × CgResourceValue))

/-- `all_resources.get(resource_type)`. -/
def lookupResType : List (String × List (String × CgResourceValue)) →
    String → Option (List (String × CgResourceValue))
  | [], _ => none
  | (rt, items) :: rest, t =>
    if rt = t then some items else lookupResType rest t

mutual
/-- `resolve_string_value`, indexed by fuel: `none` means the fuel ran out
(the Rust recursion went deeper than the index), `some r` is the Rust
function's return value `r`. The visited set is threaded as the list of
`type:key` strings; the Rust code removes the inserted key before returning,
so callers observe an unchanged set, which the pure embedding renders by
passing `visited` unchanged to the continuation. -/
def resolveStringValue (fuel : Nat) (resourceType key : String)
    (all : ResMap) (visited : List String) : Option (Option String) :=
  match fuel with
  | 0 => none
  | fuel + 1 =>
    let refKey := resourceType ++ ":" ++ key
    if visited.contains refKey then some none
    else
      match lookupResType all resourceType with
      | none => some none
      | some targetResources =>
        match targetResources.find? (fun e => e.1 = key) with
        | none => some none
        | some target =>
          extractStringFromValue fuel target.2 all (refKey :: visited)

/-- `extract_string_from_value`, indexed by fuel. The `InterpolatedString`
branch inlines the loop of `resolve_interpolation_parts` (the standalone
`resolveInterpolationParts` below has the identical body). -/
def extractStringFromValue (fuel : Nat) (value : CgResourceValue)
    (all : ResMap) (visited : List String) : Option (Option String) :=
  match fuel with
  | 0 => none
  | fuel + 1 =>
    match value with
    | .string s => some (some s)
    | .reference resourceType key =>
      resolveStringValue fuel resourceType key all visited
    | .interpolatedString parts =>
      match parts.foldl
          (fun acc part =>
            match acc with
            | none => none
            | some result =>
              match part with
              | .text t => some (result ++ t)
              | .reference resourceType key =>
                match resolveStringValue fuel resourceType key all visited
                  with
                | none => none
                | some resolved =>
                  some (result ++
                    match resolved with
                    | some str => str
                    | none => "@" ++ key))
          (some "") with
      | none => none
      | some s => some (some s)
    | _ => some none
end

/-- `resolve_interpolation_parts`, indexed by fuel: the Rust function always
returns `Some(..)`, so `some s` is its result and `none` is fuel
exhaustion. An unresolved or circular reference part becomes the `@key`
placeholder. -/
def resolveInterpolationParts (fuel : Nat) (parts : List InterpolationPart)
    (all : ResMap) (visited : List String) : Option String :=
  parts.foldl
    (fun acc part =>
      match acc with
      | none => none
      | some result =>
        match part with
        | .text t => some (result ++ t)
        | .reference resourceType key =>
          match resolveStringValue fuel resourceType key all visited with
          | none => none
          | some resolved =>
            some (result ++
              match resolved with
              | some str => str
              | none => "@" ++ key))
    (some "")

/-- Every `type:key` pair present in the map (the only pairs that can be
added to the visited set by a recursion step that continues). -/
def resMapRefKeys (all : ResMap) : List String :=
  all.flatMap (fun e => e.2.map (fun item => e.1 ++ ":" ++ item.1))

/-- Fuel that always suffices for `resolve_string_value` starting from an
empty visited set. -/
def resolveFuelBound (all : ResMap) : Nat :=
  2 * (resMapRefKeys all).length + 2

/-- The number of map-present `type:key` pairs not yet in the visited set:
the measure that shrinks at every recursion step of the resolver that
actually recurses. -/
def unvisitedCount (all : ResMap) (visited : List String) : Nat :=
  ((resMapRefKeys all).dedup.filter (fun x => ¬visited.contains x)).length

/-- `emit_interpolated_constant`'s resolution step: resolve the parts with a
fresh visited set (`unwrap_or` supplies `@invalid`, which the Rust function
never produces; in the embedding it also covers fuel exhaustion, shown
impossible by the termination theorem). -/
def emitInterpolatedResolution (parts : List InterpolationPart)
    (all : ResMap) : String :=
  match resolveInterpolationParts (resolveFuelBound all) parts all [] with
  | some s => s
  | none => "@invalid"

/-! ### codegen/generator/flat.rs -/

/-- `ResourceEntry` from codegen/generator/flat.rs. -/
structure ResourceEntry where
  resourceType : String
  fullPath : String
  modulePath : String
  leafName : String
deriving DecidableEq, Repr

/-- `path.split('/').filter(|s| !s.is_empty())`. -/
def splitPathParts (path : String) : List String :=
  (splitOnChar '/' path).filter (fun s => ¬s.isEmpty)

/-- `split_path` from codegen/generator/flat.rs. codegen::utils::
`sanitize_identifier` is not among the repository's files; it is modelled
identically to generator/utils.rs's function of the same name. -/
def splitPath (path : String) : String × String :=
  match splitPathParts path with
  | [] => ("", "")
  | parts =>
    if parts.length = 1 then ("", parts.headI)
    else
      (String.intercalate "::" (parts.dropLast.map sanitizeIdentifier),
        (parts.getLast?).getD "")

/-- A `ResourceEntry` as `collect_all_resources` builds one. -/
def mkEntry (resourceType path : String) : ResourceEntry :=
  let (modulePath, leafName) := splitPath path
  ⟨resourceType, path, modulePath, leafName⟩

/-- The uppercased sanitized leaf used for grouping and as the bare alias. -/
def leafUpper (e : ResourceEntry) : String :=
  toUpperS (sanitizeIdentifier e.leafName)

/-- The candidate alias of `compute_minimal_prefix` for a given number of
dropped leading segments: the remaining segments, sanitized, uppercased and
joined by underscores. -/
def candidateAt (parts : List String) (dropCount : Nat) : String :=
  String.intercalate "_"
    ((parts.drop dropCount).map (fun p => toUpperS (sanitizeIdentifier p)))

/-- The uniqueness test inside `compute_minimal_prefix`: exactly one entry
has this candidate at this drop count. -/
def isUniqueCandidate (entries : List ResourceEntry) (dropCount : Nat)
    (candidate : String) : Bool :=
  (entries.filter (fun e =>
    let eParts := splitPathParts e.fullPath
    decide (dropCount < eParts.length) &&
      decide (candidateAt eParts dropCount = candidate))).length = 1

/-- The search loop of `compute_minimal_prefix`: `prefix_len` ranges over
`0..parts.len()`, so the first candidate tried keeps every segment (the full
path) and each step drops one more leading segment. -/
def minimalAliasGo (parts : List String) (entries : List ResourceEntry) :
    Nat → Nat → Option String
  | _, 0 => none
  | dropCount, remaining + 1 =>
    let candidate := candidateAt parts dropCount
    if isUniqueCandidate entries dropCount candidate then some candidate
    else minimalAliasGo parts entries (dropCount + 1) remaining

/-- `compute_minimal_prefix` from codegen/generator/flat.rs (the fallback is
the sanitized, uppercased full path). -/
def computeMinimalAlias (targetPath : String)
    (entries : List ResourceEntry) : String :=
  let parts := splitPathParts targetPath
  (minimalAliasGo parts entries 0 parts.length).getD
    (toUpperS (sanitizeIdentifier targetPath))

/-- `aliases.insert(path, alias)` (replace an existing binding). -/
def upsertAlias : List (String × String) → String → String →
    List (String × String)
  | [], path, al => [(path, al)]
  | (p, a) :: rest, path, al =>
    if p = path then (p, al) :: rest
    else (p, a) :: upsertAlias rest path al

/-- `aliases.get(path)`. -/
def lookupAlias : List (String × String) → String → Option String
  | [], _ => none
  | (p, a) :: rest, path => if p = path then some a else lookupAlias rest path

/-- `name_to_paths`: group the entries' full paths by uppercased leaf name.
Rust stores the groups in a `HashMap` and iterates them in arbitrary order;
the groups' path sets are pairwise disjoint, so the resulting alias map does
not depend on that order and the embedding uses first-appearance order. -/
def leafGroups (entries : List ResourceEntry) : List (String × List String) :=
  entries.foldl
    (fun groups e =>
      let rec add : List (String × List String) → List (String × List String)
        | [] => [(leafUpper e, [e.fullPath])]
        | (k, ps) :: rest =>
          if k = leafUpper e then (k, ps ++ [e.fullPath]) :: rest
          else (k, ps) :: add rest
      add groups)
    []

/-- The per-group body of `compute_minimal_aliases`'s second loop: a group
with a single path gets the bare uppercased leaf, a conflicting group gets
`compute_minimal_prefix` for each of its paths. -/
def aliasStep (entries : List ResourceEntry)
    (aliases : List (String × String)) :
    String × List String → List (String × String)
  | (leafU, [path]) => upsertAlias aliases path leafU
  | (_, paths) =>
    paths.foldl
      (fun a path => upsertAlias a path (computeMinimalAlias path entries))
      aliases

/-- `compute_minimal_aliases` from codegen/generator/flat.rs. -/
def computeMinimalAliases (entries : List ResourceEntry) :
    List (String × String) :=
  (leafGroups entries).foldl (aliasStep entries) []

/-! ### generator/input/loader/profile.rs

The `quick_xml` reader is abstracted as the stream of read results it hands
to `preprocess_xml`'s loop: each `read_event_into` call yields either an
event or a read error. The loop over that stream and the tag writers are
embedded from the source. -/

/-- An XML event as `preprocess_xml` consumes it (`Comment`, `Decl`, `CData`,
`PI`, `DocType` and `GeneralRef` are all ignored by the loop and collapse
into `other`). -/
inductive XmlEvent where
  | start (name : String) (attrs : List (String × String))
  | empty (name : String) (attrs : List (String × String))
  | text (s : String)
  | stop (name : String)
  | other
deriving DecidableEq, Repr

/-- `extract_profile_attr_start` / `extract_profile_attr_empty`: the first
`profile` attribute's value. -/
def extractProfileAttr : List (String × String) → Option String
  | [] => none
  | (k, v) :: rest => if k = "profile" then some v else extractProfileAttr rest

/-- `write_start_tag`. -/
def writeStartTag (name : String) (attrs : List (String × String)) : String :=
  "<" ++ name ++
    (attrs.foldl (fun acc a => acc ++ " " ++ a.1 ++ "=\"" ++ a.2 ++ "\"") "")
    ++ ">"

/-- `write_empty_tag`. -/
def writeEmptyTag (name : String) (attrs : List (String × String)) : String :=
  "<" ++ name ++
    (attrs.foldl (fun acc a => acc ++ " " ++ a.1 ++ "=\"" ++ a.2 ++ "\"") "")
    ++ "/>"

/-- `write_end_tag`. -/
def writeEndTag (name : String) : String :=
  "</" ++ name ++ ">"

/-- The loop of `preprocess_xml` over the reader's results: a read error
returns the original text unchanged; the end of the stream (`Eof`) returns
the accumulated output. -/
def preprocessLoop (xml : String) (currentProfile : String) :
    List (Except Unit XmlEvent) → Nat → String → String
  | [], _, out => out
  | .error _ :: _, _, _ => xml
  | .ok e :: rest, skipDepth, out =>
    match e with
    | .start name attrs =>
      let profileAttr := extractProfileAttr attrs
      let skipDepth' :=
        if skipDepth > 0 then skipDepth + 1
        else
          match profileAttr with
          | some p => if p ≠ currentProfile then 1 else 0
          | none => 0
      let out' :=
        if skipDepth' = 0 then out ++ writeStartTag name attrs else out
      preprocessLoop xml currentProfile rest skipDepth' out'
    | .empty name attrs =>
      let out' :=
        if skipDepth = 0 then
          match extractProfileAttr attrs with
          | some p =>
            if p = currentProfile then out ++ writeEmptyTag name attrs else out
          | none => out ++ writeEmptyTag name attrs
        else out
      preprocessLoop xml currentProfile rest skipDepth out'
    | .text s =>
      let out' := if skipDepth = 0 then out ++ s else out
      preprocessLoop xml currentProfile rest skipDepth out'
    | .stop name =>
      if skipDepth > 0 then
        preprocessLoop xml currentProfile rest (skipDepth - 1) out
      else
        preprocessLoop xml currentProfile rest skipDepth
          (out ++ writeEndTag name)
    | .other => preprocessLoop xml currentProfile rest skipDepth out

/-- `preprocess_xml`: run the loop from depth 0 with empty output over the
reader's result stream for `xml`. -/
def preprocessXml (xml : String) (currentProfile : String)
    (events : List (Except Unit XmlEvent)) : String :=
  preprocessLoop xml currentProfile events 0 ""

/-- An XML node tree, for stating what the profile filter keeps: an element
is a start/end pair (or an empty tag when `selfClosing`) with its attributes
and children, a text node is character data. -/
inductive XmlNode where
  | elem (name : String) (attrs : List (String × String))
      (selfClosing : Bool) (children : List XmlNode)
  | text (s : String)

mutual
/-- The reader's event stream for a node (children of a self-closing tag do
not exist in the document and yield nothing). -/
def nodeEvents : XmlNode → List XmlEvent
  | .elem name attrs true _ => [.empty name attrs]
  | .elem name attrs false children =>
    .start name attrs :: forestEvents children ++ [.stop name]
  | .text s => [.text s]

/-- The reader's event stream for a node list. -/
def forestEvents : List XmlNode → List XmlEvent
  | [] => []
  | n :: rest => nodeEvents n ++ forestEvents rest
end

mutual
/-- The specification-side filter (spec §4.1): drop every element whose
`profile` attribute differs from the active profile, together with its whole
subtree; keep matching elements and elements without the attribute,
recursively filtering their children; keep text. -/
def filterNode (currentProfile : String) : XmlNode → List XmlNode
  | .elem name attrs selfClosing children =>
    match extractProfileAttr attrs with
    | some p =>
      if p = currentProfile then
        [.elem name attrs selfClosing (filterForest currentProfile children)]
      else []
    | none =>
      [.elem name attrs selfClosing (filterForest currentProfile children)]
  | .text s => [.text s]

/-- `filterNode` over a node list. -/
def filterForest (currentProfile : String) : List XmlNode → List XmlNode
  | [] => []
  | n :: rest =>
    filterNode currentProfile n ++ filterForest currentProfile rest
end

mutual
/-- Re-serialization of a node with the embedded tag writers. -/
def serializeNode : XmlNode → String
  | .elem name attrs true _ => writeEmptyTag name attrs
  | .elem name attrs false children =>
    writeStartTag name attrs ++ serializeForest children ++ writeEndTag name
  | .text s => s

/-- `serializeNode` over a node list. -/
def serializeForest : List XmlNode → String
  | [] => ""
  | n :: rest => serializeNode n ++ serializeForest rest
end

/-! ### generator/input/loader/{mod,scan,error,raw_file}.rs -/

/-- `LoaderError` from loader/error.rs. -/
inductive LoaderError where
  | missingDirectory (dir : String)
  | noXmlFilesFound (searched : String)
  | io (path : String)
deriving DecidableEq, Repr

/-- `RawResourceFile` from loader/raw_file.rs. -/
structure RawResourceFile where
  path : String
  contents : String
  isTest : Bool
deriving DecidableEq, Repr

/-- One file of the abstract file system: its path, whether the directory
entry is a regular file with the `xml` extension, its raw text, and the
reader's event stream for that text (see the profile section). A `.error`
read result models `fs::read_to_string` failing. -/
structure FsEntry where
  path : String
  isFile : Bool
  isXml : Bool
  contents : Except Unit String
  events : List (Except Unit XmlEvent)

/-- A directory of the abstract file system: `none` when it does not
exist. -/
def FsDir := Option (List FsEntry)

/-- `BuildPlan` from generator/input/mod.rs, with the two directories'
contents substituted for their paths. -/
structure PlanFs where
  resourcesDirPath : String
  resourcesDir : FsDir
  testsResourcesDir : Option (String × FsDir)
  profile : String

/-- `collect_xml_files`: regular files with the `xml` extension, sorted by
path. -/
def collectXmlFiles (entries : List FsEntry) : List String :=
  sortStrings ((entries.filter (fun e => e.isFile ∧ e.isXml)).map
    (fun e => e.path))

/-- The read-and-preprocess loop of `load_directory`. -/
def loadFilesAt (entries : List FsEntry) (isTest : Bool) (profile : String) :
    List String → Except LoaderError (List RawResourceFile)
  | [] => .ok []
  | path :: rest =>
    match entries.find? (fun e => e.path = path) with
    | none => .error (.io path)
    | some entry =>
      match entry.contents with
      | .error _ => .error (.io path)
      | .ok raw =>
        match loadFilesAt entries isTest profile rest with
        | .error err => .error err
        | .ok files =>
          .ok (⟨path, preprocessXml raw profile entry.events, isTest⟩ :: files)

/-- `load_directory` from loader/mod.rs. -/
def loadDirectory (dirPath : String) (dir : FsDir) (isTest : Bool)
    (profile : String) (strict : Bool) :
    Except LoaderError (List RawResourceFile) :=
  match dir with
  | none => if strict then .error (.missingDirectory dirPath) else .ok []
  | some entries =>
    let xmlPaths := collectXmlFiles entries
    if xmlPaths.isEmpty then
      if strict then .error (.noXmlFilesFound dirPath) else .ok []
    else loadFilesAt entries isTest profile xmlPaths

/-- `load_resources` from loader/mod.rs: the root directory strictly, then
the optional test directory non-strictly (skipped entirely when it does not
exist). -/
def loadResources (plan : PlanFs) :
    Except LoaderError (List RawResourceFile) :=
  match loadDirectory plan.resourcesDirPath plan.resourcesDir false
      plan.profile true with
  | .error err => .error err
  | .ok files =>
    match plan.testsResourcesDir with
    | some (testsPath, testsDir) =>
      match testsDir with
      | none => .ok files
      | some _ =>
        match loadDirectory testsPath testsDir true plan.profile false with
        | .error err => .error err
        | .ok testFiles => .ok (files ++ testFiles)
    | none => .ok files

/-- Every key's node list truncated to its primary (first) node: generation
consults nothing beyond this (C1). -/
def primaryize (g : ResourceGraph) : ResourceGraph :=
  g.map (fun e => (e.1, e.2.take 1))

/-- Substring containment, for stating what the generated output holds. -/
def containsSubstring (s sub : String) : Bool :=
  decide (sub.toList <:+: s.toList)

/-- generator/mod.rs, `build_with_plan_and_options`: a non-empty error list
stops the build before generation. -/
def buildHaltsOnErrors (result : AnalysisResult) : Bool :=
  ¬result.errors.isEmpty

/-! ## Theorems -/

/-! ### Order lemmas for the `BTreeMap` comparator -/

theorem charsLt_irrefl : ∀ l : List Char, charsLt l l = false
  | [] => rfl
  | c :: cs => by
    simp only [charsLt, lt_irrefl, if_false]
    exact charsLt_irrefl cs

theorem charsLt_eq_of_not_lt :
    ∀ {a b : List Char}, charsLt a b = false → charsLt b a = false → a = b
  | [], [], _, _ => rfl
  | [], _ :: _, h, _ => by simp [charsLt] at h
  | _ :: _, [], _, h => by simp [charsLt] at h
  | a :: as, b :: bs, h1, h2 => by
    simp only [charsLt] at h1 h2
    by_cases hab : a < b
    · simp [hab] at h1
    · by_cases hba : b < a
      · simp [hba, hab] at h2
      · have hchars : charsLt as bs = false := by simpa [hab, hba] using h1
        have hchars' : charsLt bs as = false := by simpa [hab, hba] using h2
        have : a = b := le_antisymm (not_lt.mp hba) (not_lt.mp hab)
        rw [this, charsLt_eq_of_not_lt hchars hchars']

theorem charsLt_trans :
    ∀ {a b c : List Char}, charsLt a b = true → charsLt b c = true →
      charsLt a c = true
  | [], [], _, h, _ => by simp [charsLt] at h
  | [], _ :: _, _ :: _, _, _ => rfl
  | [], _ :: _, [], _, h => by simp [charsLt] at h
  | _ :: _, [], _, h, _ => by simp [charsLt] at h
  | _ :: _, _ :: _, [], _, h => by simp [charsLt] at h
  | a :: as, b :: bs, c :: cs, h1, h2 => by
    simp only [charsLt] at h1 h2 ⊢
    by_cases hab : a < b
    · by_cases hbc : b < c
      · simp [lt_trans hab hbc]
      · by_cases hcb : c < b
        · simp [hcb, hbc] at h2
        · have : b = c := le_antisymm (not_lt.mp hcb) (not_lt.mp hbc)
          subst this
          simp [hab]
    · by_cases hba : b < a
      · simp [hab, hba] at h1
      · have : a = b := le_antisymm (not_lt.mp hba) (not_lt.mp hab)
        subst this
        by_cases hbc : a < c
        · simp [hbc]
        · by_cases hcb : c < a
          · simp [hbc, hcb] at h2
          · have : a = c := le_antisymm (not_lt.mp hcb) (not_lt.mp hbc)
            subst this
            simp only [lt_irrefl, if_false] at h1 h2 ⊢
            exact charsLt_trans h1 h2

theorem string_eq_of_toList (a b : String) (h : a.toList = b.toList) :
    a = b := by
  cases a; cases b; exact congrArg String.mk h

theorem strLt_irrefl (s : String) : strLt s s = false :=
  charsLt_irrefl s.toList

theorem strLt_eq_of_not_lt {a b : String} (h1 : strLt a b = false)
    (h2 : strLt b a = false) : a = b :=
  string_eq_of_toList a b (charsLt_eq_of_not_lt h1 h2)

theorem strLt_trans {a b c : String} (h1 : strLt a b = true)
    (h2 : strLt b c = true) : strLt a c = true :=
  charsLt_trans h1 h2

theorem nsLt_irrefl : ∀ l : List String, nsLt l l = false
  | [] => rfl
  | s :: rest => by
    simp only [nsLt, strLt_irrefl, if_false]
    exact nsLt_irrefl rest

theorem nsLt_eq_of_not_lt :
    ∀ {a b : List String}, nsLt a b = false → nsLt b a = false → a = b
  | [], [], _, _ => rfl
  | [], _ :: _, h, _ => by simp [nsLt] at h
  | _ :: _, [], _, h => by simp [nsLt] at h
  | a :: as, b :: bs, h1, h2 => by
    simp only [nsLt] at h1 h2
    by_cases hab : strLt a b = true
    · simp [hab] at h1
    · by_cases hba : strLt b a = true
      · simp [hba, hab] at h2
      · have ha' : strLt a b = false := by simpa using hab
        have hb' : strLt b a = false := by simpa using hba
        have hrest : nsLt as bs = false := by simpa [ha', hb'] using h1
        have hrest' : nsLt bs as = false := by simpa [ha', hb'] using h2
        rw [strLt_eq_of_not_lt ha' hb', nsLt_eq_of_not_lt hrest hrest']

theorem nsLt_trans :
    ∀ {a b c : List String}, nsLt a b = true → nsLt b c = true →
      nsLt a c = true
  | [], [], _, h, _ => by simp [nsLt] at h
  | [], _ :: _, _ :: _, _, _ => rfl
  | [], _ :: _, [], _, h => by simp [nsLt] at h
  | _ :: _, [], _, h, _ => by simp [nsLt] at h
  | _ :: _, _ :: _, [], _, h => by simp [nsLt] at h
  | a :: as, b :: bs, c :: cs, h1, h2 => by
    simp only [nsLt] at h1 h2 ⊢
    by_cases hab : strLt a b = true
    · by_cases hbc : strLt b c = true
      · simp [strLt_trans hab hbc]
      · by_cases hcb : strLt c b = true
        · simp [hcb, hbc] at h2
        · have : b = c :=
            strLt_eq_of_not_lt (by simpa using hbc) (by simpa using hcb)
          subst this
          simp [hab]
    · by_cases hba : strLt b a = true
      · simp [hab, hba] at h1
      · have : a = b :=
          strLt_eq_of_not_lt (by simpa using hab) (by simpa using hba)
        subst this
        by_cases hbc : strLt a c = true
        · simp [hbc]
        · by_cases hcb : strLt c a = true
          · simp [hbc, hcb] at h2
          · have : a = c :=
              strLt_eq_of_not_lt (by simpa using hbc) (by simpa using hcb)
            subst this
            simp only [strLt_irrefl, if_false] at h1 h2 ⊢
            exact nsLt_trans h1 h2

theorem keyLt_irrefl (k : ResourceKey) : keyLt k k = false := by
  simp [keyLt, nsLt_irrefl, strLt_irrefl]

theorem keyLt_eq_of_not_lt {a b : ResourceKey} (h1 : keyLt a b = false)
    (h2 : keyLt b a = false) : a = b := by
  unfold keyLt at h1 h2
  by_cases hab : nsLt a.namespace b.namespace = true
  · simp [hab] at h1
  · by_cases hba : nsLt b.namespace a.namespace = true
    · simp [hba, hab] at h2
    · have hns : a.namespace = b.namespace :=
        nsLt_eq_of_not_lt (by simpa using hab) (by simpa using hba)
      have hn1 : strLt a.name b.name = false := by
        simpa [hab, hba] using h1
      have hn2 : strLt b.name a.name = false := by
        simpa [hab, hba] using h2
      have hname : a.name = b.name := strLt_eq_of_not_lt hn1 hn2
      cases a; cases b
      simp_all

theorem keyLt_trans {a b c : ResourceKey} (h1 : keyLt a b = true)
    (h2 : keyLt b c = true) : keyLt a c = true := by
  unfold keyLt at h1 h2 ⊢
  by_cases hab : nsLt a.namespace b.namespace = true
  · by_cases hbc : nsLt b.namespace c.namespace = true
    · simp [nsLt_trans hab hbc]
    · by_cases hcb : nsLt c.namespace b.namespace = true
      · simp [hcb, hbc] at h2
      · have : b.namespace = c.namespace :=
          nsLt_eq_of_not_lt (by simpa using hbc) (by simpa using hcb)
        rw [← this]
        simp [hab]
  · by_cases hba : nsLt b.namespace a.namespace = true
    · simp [hab, hba] at h1
    · have hns : a.namespace = b.namespace :=
        nsLt_eq_of_not_lt (by simpa using hab) (by simpa using hba)
      rw [hns]
      by_cases hbc : nsLt b.namespace c.namespace = true
      · simp [hbc]
      · by_cases hcb : nsLt c.namespace b.namespace = true
        · simp [hbc, hcb] at h2
        · have hn1 : strLt a.name b.name = true := by
            simpa [hab, hba] using h1
          have hn2 : strLt b.name c.name = true := by
            simpa [hbc, hcb] using h2
          simp [hbc, hcb, strLt_trans hn1 hn2]

theorem keyLt_ne {a b : ResourceKey} (h : keyLt a b = true) : a ≠ b := by
  intro he
  subst he
  rw [keyLt_irrefl] at h
  exact Bool.noConfusion h

theorem keyLt_of_not {a b : ResourceKey} (hne : a ≠ b)
    (h : keyLt a b = false) : keyLt b a = true := by
  by_cases hba : keyLt b a = true
  · exact hba
  · exact absurd (keyLt_eq_of_not_lt h (by simpa using hba)) hne

/-! ### ResourceGraph lemmas (C9) -/

theorem lookup_isSome_iff_containsKey :
    ∀ (g : ResourceGraph) (k : ResourceKey),
      (g.lookup k).isSome = g.containsKey k
  | [], _ => rfl
  | (k', _) :: rest, k => by
    by_cases h : k' = k
    · simp [ResourceGraph.lookup, ResourceGraph.containsKey, h]
    · simp only [ResourceGraph.lookup, ResourceGraph.containsKey, List.any_cons,
        if_neg h]
      rw [lookup_isSome_iff_containsKey rest k]
      simp [ResourceGraph.containsKey, h]

theorem insertGo_keys :
    ∀ (g : List (ResourceKey × List ResourceNode)) (k : ResourceKey)
      (n : ResourceNode) (e : ResourceKey × List ResourceNode),
      e ∈ insertGo g k n → e.1 = k ∨ e ∈ g
  | [], k, n, e, he => by
    simp [insertGo] at he
    subst he
    exact Or.inl rfl
  | (k', ns) :: rest, k, n, e, he => by
    simp only [insertGo] at he
    by_cases h1 : k = k'
    · rw [if_pos h1] at he
      rcases List.mem_cons.mp he with h | h
      · subst h; exact Or.inl h1.symm
      · exact Or.inr (List.mem_cons_of_mem _ h)
    · rw [if_neg h1] at he
      by_cases h2 : keyLt k k' = true
      · rw [if_pos h2] at he
        rcases List.mem_cons.mp he with h | h
        · subst h; exact Or.inl rfl
        · exact Or.inr h
      · rw [if_neg h2] at he
        rcases List.mem_cons.mp he with h | h
        · subst h; exact Or.inr (List.mem_cons_self _ _)
        · rcases insertGo_keys rest k n e h with h' | h'
          · exact Or.inl h'
          · exact Or.inr (List.mem_cons_of_mem _ h')

theorem insertGo_sorted :
    ∀ (g : List (ResourceKey × List ResourceNode)) (k : ResourceKey)
      (n : ResourceNode), SortedKeys g → SortedKeys (insertGo g k n)
  | [], k, n, _ => by
    simp [insertGo, SortedKeys]
  | (k', ns) :: rest, k, n, hs => by
    have hhead := List.pairwise_cons.mp hs
    simp only [insertGo]
    by_cases h1 : k = k'
    · rw [if_pos h1]
      exact List.Pairwise.cons hhead.1 hhead.2
    · rw [if_neg h1]
      by_cases h2 : keyLt k k' = true
      · rw [if_pos h2]
        refine List.Pairwise.cons ?_ hs
        intro e he
        rcases List.mem_cons.mp he with h | h
        · subst h; exact h2
        · exact keyLt_trans h2 (hhead.1 e h)
      · rw [if_neg h2]
        refine List.Pairwise.cons ?_ (insertGo_sorted rest k n hhead.2)
        intro e he
        rcases insertGo_keys rest k n e he with h | h
        · rw [h]
          exact keyLt_of_not h1 (by simpa using h2)
        · exact hhead.1 e h

theorem lookup_eq_none_of_forall_lt (g : ResourceGraph) (k : ResourceKey)
    (h : ∀ e ∈ g, keyLt k e.1 = true) : g.lookup k = none := by
  induction g with
  | nil => rfl
  | cons e rest ih =>
    have hne : e.1 ≠ k := (keyLt_ne (h e (List.mem_cons_self _ _))).symm
    simp only [ResourceGraph.lookup, if_neg hne]
    exact ih (fun e' he' => h e' (List.mem_cons_of_mem _ he'))

theorem lookup_insertGo_self :
    ∀ (g : ResourceGraph) (k : ResourceKey) (n : ResourceNode),
      SortedKeys g →
      ResourceGraph.lookup (insertGo g k n) k =
        some ((g.lookup k).getD [] ++ [n])
  | [], k, n, _ => by simp [insertGo, ResourceGraph.lookup]
  | (k', ns) :: rest, k, n, hs => by
    have hhead := List.pairwise_cons.mp hs
    simp only [insertGo]
    by_cases h1 : k = k'
    · subst h1
      simp [ResourceGraph.lookup]
    · rw [if_neg h1]
      by_cases h2 : keyLt k k' = true
      · rw [if_pos h2]
        have hnone : ResourceGraph.lookup ((k', ns) :: rest) k = none := by
          apply lookup_eq_none_of_forall_lt
          intro e he
          rcases List.mem_cons.mp he with h | h
          · subst h; exact h2
          · exact keyLt_trans h2 (hhead.1 e h)
        have hnone' :
            (if k' = k then some ns else ResourceGraph.lookup rest k) =
              none := hnone
        simp [ResourceGraph.lookup, hnone']
      · rw [if_neg h2]
        have hne' : ¬k' = k := fun h => h1 h.symm
        simp only [ResourceGraph.lookup, if_neg hne']
        exact lookup_insertGo_self rest k n hhead.2

theorem lookup_insertGo_ne :
    ∀ (g : ResourceGraph) (k : ResourceKey) (n : ResourceNode)
      (k'' : ResourceKey), k'' ≠ k →
      ResourceGraph.lookup (insertGo g k n) k'' = g.lookup k''
  | [], k, n, k'', hne => by
    have hkk : ¬k = k'' := fun h => hne h.symm
    simp [insertGo, ResourceGraph.lookup, hkk]
  | (k', ns) :: rest, k, n, k'', hne => by
    simp only [insertGo]
    by_cases h1 : k = k'
    · rw [if_pos h1]
      have hkk : ¬k' = k'' := by rw [← h1]; exact fun h => hne h.symm
      simp [ResourceGraph.lookup, hkk]
    · rw [if_neg h1]
      by_cases h2 : keyLt k k' = true
      · rw [if_pos h2]
        have hkk : ¬k = k'' := fun h => hne h.symm
        simp [ResourceGraph.lookup, hkk]
      · rw [if_neg h2]
        by_cases h3 : k' = k''
        · simp [ResourceGraph.lookup, h3]
        · simp only [ResourceGraph.lookup, if_neg h3]
          exact lookup_insertGo_ne rest k n k'' hne

/-- Present keys map to non-empty node lists. -/
def ValsNonEmpty (g : ResourceGraph) : Prop :=
  ∀ e ∈ g, e.2 ≠ []

theorem insertGo_nonEmpty :
    ∀ (g : List (ResourceKey × List ResourceNode)) (k : ResourceKey)
      (n : ResourceNode), ValsNonEmpty g → ValsNonEmpty (insertGo g k n)
  | [], k, n, _ => by
    intro e he
    simp [insertGo] at he
    subst he
    simp
  | (k', ns) :: rest, k, n, hv => by
    intro e he
    simp only [insertGo] at he
    by_cases h1 : k = k'
    · rw [if_pos h1] at he
      rcases List.mem_cons.mp he with h | h
      · subst h; simp
      · exact hv e (List.mem_cons_of_mem _ h)
    · rw [if_neg h1] at he
      by_cases h2 : keyLt k k' = true
      · rw [if_pos h2] at he
        rcases List.mem_cons.mp he with h | h
        · subst h; simp
        · exact hv e h
      · rw [if_neg h2] at he
        rcases List.mem_cons.mp he with h | h
        · subst h; exact hv _ (List.mem_cons_self _ _)
        · exact insertGo_nonEmpty rest k n
            (fun e' he' => hv e' (List.mem_cons_of_mem _ he')) e h

theorem buildGraph_invariant (ops : List (ResourceKey × ResourceNode)) :
    SortedKeys (buildGraph ops) ∧ ValsNonEmpty (buildGraph ops) := by
  suffices h : ∀ (ops : List (ResourceKey × ResourceNode))
      (g : ResourceGraph), SortedKeys g → ValsNonEmpty g →
      SortedKeys (ops.foldl (fun g op => (g.insert op.1 op.2).2) g) ∧
      ValsNonEmpty (ops.foldl (fun g op => (g.insert op.1 op.2).2) g) by
    exact h ops ResourceGraph.empty (by constructor) (by intro e he; cases he)
  intro ops
  induction ops with
  | nil => intro g hs hv; exact ⟨hs, hv⟩
  | cons op rest ih =>
    intro g hs hv
    exact ih _ (insertGo_sorted g op.1 op.2 hs)
      (insertGo_nonEmpty g op.1 op.2 hv)

theorem lookup_mem :
    ∀ (g : ResourceGraph) (k : ResourceKey) (l : List ResourceNode),
      g.lookup k = some l → (k, l) ∈ g
  | [], _, _, h => by cases h
  | (k', ns) :: rest, k, l, h => by
    by_cases he : k' = k
    · subst he
      simp only [ResourceGraph.lookup, if_pos rfl] at h
      cases h
      exact List.mem_cons_self _ _
    · simp only [ResourceGraph.lookup, if_neg he] at h
      exact List.mem_cons_of_mem _ (lookup_mem rest k l h)

/-- C9: across every sequence of `insert` operations from the empty graph,
every present key maps to a non-empty node list; a further `insert` appends
its node to that key's list and leaves every other key's list unchanged (so
the first-inserted node stays `get`'s primary node); and `insert` reports
`true` exactly when the key was already present. -/
theorem graph_insert_invariants (ops : List (ResourceKey × ResourceNode))
    (k k' : ResourceKey) (n m : ResourceNode) :
    (∀ l, (buildGraph ops).lookup k = some l → l ≠ []) ∧
    (((buildGraph ops).insert k n).2.lookup k =
      some ((((buildGraph ops).lookup k).getD []) ++ [n])) ∧
    (k' ≠ k → ((buildGraph ops).insert k n).2.lookup k' =
      (buildGraph ops).lookup k') ∧
    ((buildGraph ops).get k' = some m →
      (((buildGraph ops).insert k n).2).get k' = some m) ∧
    (((buildGraph ops).insert k n).1 = true ↔
      ((buildGraph ops).lookup k).isSome = true) := by
  obtain ⟨hs, hv⟩ := buildGraph_invariant ops
  refine ⟨?_, ?_, ?_, ?_, ?_⟩
  · intro l hl
    exact hv (k, l) (lookup_mem _ _ _ hl)
  · exact lookup_insertGo_self _ k n hs
  · intro hne
    exact lookup_insertGo_ne _ k n k' hne
  · intro hget
    unfold ResourceGraph.get at hget ⊢
    simp only [ResourceGraph.insert]
    by_cases he : k' = k
    · subst he
      cases hl : (buildGraph ops).lookup k' with
      | none => rw [hl] at hget; cases hget
      | some l =>
        rw [hl] at hget
        rw [lookup_insertGo_self _ k' n hs, hl]
        cases l with
        | nil => cases hget
        | cons a t => simpa using hget
    · rw [lookup_insertGo_ne _ k n k' he]
      exact hget
  · show ((buildGraph ops).containsKey k = true ↔ _)
    rw [← lookup_isSome_iff_containsKey]

/-- Witness for `graph_insert_invariants`: the invariants evaluated on the
two-key graph built from inserts of `a` and `b`, then a duplicate insert of
`a`. -/
theorem graph_insert_invariants_witness :
    ((⟨[], "b"⟩ : ResourceKey) ≠ ⟨[], "a"⟩) ∧
    ((buildGraph
        [(⟨[], "a"⟩, ⟨.string, .string "First", .new "f1.xml" false⟩),
         (⟨[], "b"⟩, ⟨.string, .string "Other", .new "f1.xml" false⟩)]).insert
          ⟨[], "a"⟩ ⟨.string, .string "Second", .new "f2.xml" false⟩).2.lookup
        ⟨[], "b"⟩ =
      (buildGraph
        [(⟨[], "a"⟩, ⟨.string, .string "First", .new "f1.xml" false⟩),
         (⟨[], "b"⟩, ⟨.string, .string "Other", .new "f1.xml" false⟩)]).lookup
        ⟨[], "b"⟩ ∧
    ((buildGraph
        [(⟨[], "a"⟩, ⟨.string, .string "First", .new "f1.xml" false⟩),
         (⟨[], "b"⟩, ⟨.string, .string "Other", .new "f1.xml" false⟩)]).insert
          ⟨[], "a"⟩ ⟨.string, .string "Second", .new "f2.xml" false⟩).2.get
        ⟨[], "b"⟩ =
      some ⟨.string, .string "Other", .new "f1.xml" false⟩ := by
  have h := graph_insert_invariants
    [(⟨[], "a"⟩, ⟨.string, .string "First", .new "f1.xml" false⟩),
     (⟨[], "b"⟩, ⟨.string, .string "Other", .new "f1.xml" false⟩)]
    ⟨[], "a"⟩ ⟨[], "b"⟩
    ⟨.string, .string "Second", .new "f2.xml" false⟩
    ⟨.string, .string "Other", .new "f1.xml" false⟩
  exact ⟨by decide, h.2.2.1 (by decide), h.2.2.2.1 (by decide)⟩

/-! ### Number classification lemmas (C2, C3) -/

theorem takeWhile_all {p : Char → Bool} :
    ∀ {l : List Char}, l.all p = true →
      l.takeWhile p = l ∧ l.dropWhile p = []
  | [], _ => ⟨rfl, rfl⟩
  | c :: cs, h => by
    have hc : p c = true := (List.all_cons .. ▸ h : (p c && cs.all p) = true)
      |> Bool.and_elim_left
    have hcs : cs.all p = true := (List.all_cons .. ▸ h) |> Bool.and_elim_right
    have ih := takeWhile_all hcs
    simp [List.takeWhile, List.dropWhile, hc, ih.1, ih.2]

theorem all_digits_no_special {l : List Char} (h : l.all Char.isDigit = true)
    {ch : Char} (hch : ch.isDigit = false) :
    l.any (fun d => d = ch) = false := by
  rw [List.any_eq_false]
  intro d hd
  have hdig : d.isDigit = true := List.all_eq_true.mp h d hd
  intro he
  rw [(by simpa using he : d = ch), hch] at hdig
  cases hdig

theorem sign_digits_shape {t : String} {v : Int}
    (h : parseSigned t = some v) :
    ∃ sign digits, (sign = [] ∨ sign = ['+'] ∨ sign = ['-']) ∧
      digits.all Char.isDigit = true ∧ digits ≠ [] ∧
      t.toList = sign ++ digits := by
  cases hl : t.toList with
  | nil =>
    simp only [parseSigned, hl] at h
    exact Option.noConfusion h
  | cons c rest =>
    simp only [parseSigned, hl] at h
    by_cases hminus : c = '-'
    · rw [if_pos hminus] at h
      by_cases hcond : ¬rest.isEmpty = true ∧ rest.all Char.isDigit = true
      · exact ⟨['-'], rest, Or.inr (Or.inr rfl), hcond.2,
          by simpa [List.isEmpty_iff] using hcond.1, by simp [hminus]⟩
      · rw [if_neg (by exact_mod_cast hcond)] at h
        exact Option.noConfusion h
    · rw [if_neg hminus] at h
      by_cases hplus : c = '+'
      · rw [if_pos hplus] at h
        by_cases hcond : ¬rest.isEmpty = true ∧ rest.all Char.isDigit = true
        · exact ⟨['+'], rest, Or.inr (Or.inl rfl), hcond.2,
            by simpa [List.isEmpty_iff] using hcond.1, by simp [hplus]⟩
        · rw [if_neg (by exact_mod_cast hcond)] at h
          exact Option.noConfusion h
      · rw [if_neg hplus] at h
        by_cases hall : (c :: rest).all Char.isDigit = true
        · exact ⟨[], c :: rest, Or.inl rfl, hall, by simp, rfl⟩
        · rw [if_neg hall] at h
          exact Option.noConfusion h

theorem sign_no_special {sign : List Char}
    (hsign : sign = [] ∨ sign = ['+'] ∨ sign = ['-']) {ch : Char}
    (hp : ch ≠ '+') (hm : ch ≠ '-') :
    sign.any (fun d => d = ch) = false := by
  rcases hsign with h | h | h <;> subst h
  · rfl
  · simpa using fun hc => hp hc.symm
  · simpa using fun hc => hm hc.symm

/-- An integer-syntax literal (as accepted by `parse::<i64>()`) contains no
`.`, `e` or `E`, is non-empty, and is a valid decimal literal. -/
theorem parseSigned_syntax {t : String} {v : Int}
    (h : parseSigned t = some v) :
    looksLikeInteger t = true ∧ isValidDecimalLit t = true ∧
      t.isEmpty = false := by
  obtain ⟨sign, digits, hsign, hall, hne, heq⟩ := sign_digits_shape h
  have hanys : ∀ ch : Char, ch.isDigit = false → ch ≠ '+' → ch ≠ '-' →
      t.toList.any (fun d => d = ch) = false := by
    intro ch hch hp hm
    rw [heq, List.any_append, all_digits_no_special hall hch,
      sign_no_special hsign hp hm]
    rfl
  refine ⟨?_, ?_, ?_⟩
  · unfold looksLikeInteger containsChar
    rw [hanys '.' (by decide) (by decide) (by decide),
      hanys 'e' (by decide) (by decide) (by decide),
      hanys 'E' (by decide) (by decide) (by decide)]
    rfl
  · unfold isValidDecimalLit
    rw [heq]
    have h1 := takeWhile_all hall
    rcases hsign with h' | h' | h' <;> subst h'
    · cases digits with
      | nil => exact absurd rfl hne
      | cons d ds =>
        have hd : d.isDigit = true := by
          simpa using List.all_eq_true.mp hall d (List.mem_cons_self _ _)
        have hdp : d ≠ '+' := fun hh => by rw [hh] at hd; cases hd
        have hdm : d ≠ '-' := fun hh => by rw [hh] at hd; cases hd
        simp [hdp, hdm, h1.1, h1.2, List.isEmpty_iff]
    · simp [h1.1, h1.2, List.isEmpty_iff, hne]
    · simp [h1.1, h1.2, List.isEmpty_iff, hne]
  · rw [Bool.eq_false_iff]
    intro habs
    have : t = "" := (String.isEmpty_iff t).mp habs
    subst this
    rcases hsign with h' | h' | h' <;> subst h' <;> simp_all

theorem isValid_not_empty {t : String} (h : isValidDecimalLit t = true) :
    t.isEmpty = false := by
  rw [Bool.eq_false_iff]
  intro habs
  rw [(String.isEmpty_iff t).mp habs] at h
  exact absurd h (by decide)

/-- C2 (amended): number classification without an explicit type attribute,
with "significant digits" read as `count_significant_digits` counts them
(every mantissa digit, leading zeros included). An integer-syntax literal in
the 64-bit signed range becomes `Int`; one out of range becomes
`BigDecimal`; a decimal literal of at most 15 counted digits becomes
`Float`; one of more than 15 counted digits becomes `BigDecimal`; and
`type="bigdecimal"` always yields `BigDecimal` on a valid literal. -/
theorem parse_number_classification (s1 s2 s3 s4 s5 : String) (v w : Int)
    (h1 : parseSigned (trimS s1) = some v) (h1a : -(2 ^ 63) ≤ v)
    (h1b : v < 2 ^ 63)
    (h2 : parseSigned (trimS s2) = some w) (h2a : 2 ^ 63 ≤ w ∨ w < -(2 ^ 63))
    (h3 : looksLikeInteger (trimS s3) = false)
    (h3a : isValidDecimalLit (trimS s3) = true)
    (h3b : countSignificantDigits (trimS s3) ≤ 15)
    (h4 : looksLikeInteger (trimS s4) = false)
    (h4a : isValidDecimalLit (trimS s4) = true)
    (h4b : 15 < countSignificantDigits (trimS s4))
    (h5 : isValidDecimalLit (trimS s5) = true) :
    parseNumberValue s1 none = .ok (.int v) ∧
    parseNumberValue s2 none = .ok (.bigDecimal (trimS s2)) ∧
    parseNumberValue s3 none = .ok (.float (trimS s3)) ∧
    parseNumberValue s4 none = .ok (.bigDecimal (trimS s4)) ∧
    parseNumberValue s5 (some "bigdecimal") =
      .ok (.bigDecimal (trimS s5)) := by
  refine ⟨?_, ?_, ?_, ?_, ?_⟩
  · obtain ⟨hint, _, hne⟩ := parseSigned_syntax h1
    simp only [parseNumberValue, hne, Bool.false_eq_true, if_false, hint,
      if_true, parseI64, h1, Option.some_bind]
    rw [if_pos ⟨h1a, h1b⟩]
  · obtain ⟨hint, hvalid, hne⟩ := parseSigned_syntax h2
    simp only [parseNumberValue, hne, Bool.false_eq_true, if_false, hint,
      if_true, parseI64, h2, Option.some_bind]
    rw [if_neg (by omega : ¬(-(2 ^ 63) ≤ w ∧ w < 2 ^ 63))]
    simp only [parseBigDecimal, hvalid, if_true]
  · have hne := isValid_not_empty h3a
    have hreq : requiresBigDecimalPrecision (trimS s3) = false := by
      unfold requiresBigDecimalPrecision
      simp only [decide_eq_false_iff_not, gt_iff_lt, not_lt]
      omega
    simp only [parseNumberValue, hne, Bool.false_eq_true, if_false, h3, hreq,
      h3a, if_true]
  · have hne := isValid_not_empty h4a
    have hreq : requiresBigDecimalPrecision (trimS s4) = true := by
      unfold requiresBigDecimalPrecision
      simpa using h4b
    simp only [parseNumberValue, hne, Bool.false_eq_true, if_false, h4, hreq,
      if_true, parseBigDecimal, h4a]
  · have hne := isValid_not_empty h5
    have hname : toLowerS (trimS "bigdecimal") = "bigdecimal" := by decide
    simp only [parseNumberValue, hne, Bool.false_eq_true, if_false,
      parseExplicitNumber, hname, if_true, parseBigDecimal, h5]

/-- Witness for `parse_number_classification`: `42` is `Int`,
`18446744073709551616` (2^64) is `BigDecimal`, `3.14` is `Float`,
`1234567890.1234567` (17 digits) is `BigDecimal`, and `123.456` with
`type="bigdecimal"` is `BigDecimal`. -/
theorem parse_number_classification_witness :
    parseNumberValue "42" none = .ok (.int 42) ∧
    parseNumberValue "18446744073709551616" none =
      .ok (.bigDecimal "18446744073709551616") ∧
    parseNumberValue "3.14" none = .ok (.float "3.14") ∧
    parseNumberValue "1234567890.1234567" none =
      .ok (.bigDecimal "1234567890.1234567") ∧
    parseNumberValue "123.456" (some "bigdecimal") =
      .ok (.bigDecimal "123.456") := by
  have h := parse_number_classification "42" "18446744073709551616" "3.14"
    "1234567890.1234567" "123.456" 42 18446744073709551616
    (by decide) (by decide) (by decide)
    (by decide) (by norm_num)
    (by decide) (by decide) (by decide)
    (by decide) (by decide) (by decide)
    (by decide)
  simpa using h

/-- C2 counterexample: the literal `0.000000000000001` has one significant
digit in the standard sense (at most 15), yet the parser classifies it as
`BigDecimal`, because `count_significant_digits` counts its leading zeros. -/
theorem parse_number_sig_digits_counterexample :
    specSignificantDigits "0.000000000000001" = 1 ∧ (1 : Nat) ≤ 15 ∧
    parseNumberValue "0.000000000000001" none =
      .ok (.bigDecimal "0.000000000000001") := by
  refine ⟨by decide, by decide, by decide⟩

/-- C3: the explicit range check exists and produces the claimed error for
`type="i8"` with `128` (and `127` passes and emits as an `i8` constant), but
`build_node` discards the error with `.ok()?` and `ingest_file` skips the
resource silently: the graph stays empty and validation reports neither a
warning nor an error, so the build succeeds instead of failing. -/
theorem explicit_i8_range_check_dropped :
    parseExplicitNumber "128" "i8" = .error "'128' does not fit in i8" ∧
    parseExplicitNumber "127" "i8" = .ok (.typed "127" .i8) ∧
    numberEmitRust ⟨[], "x"⟩
      ⟨.number, .number (.typed "127" .i8), .new "values.xml" false⟩ 4 =
      some "    pub const X: i8 = 127;\n" ∧
    ingestFile ResourceGraph.empty
      ⟨"values.xml", false, [⟨"x", .number, .number "128" (some "i8")⟩]⟩ =
      [] ∧
    validateWithOptions
      (ingestFile ResourceGraph.empty
        ⟨"values.xml", false, [⟨"x", .number, .number "128" (some "i8")⟩]⟩)
      ⟨true⟩ = ⟨[], []⟩ ∧
    ingestFile ResourceGraph.empty
      ⟨"values.xml", false, [⟨"x", .number, .number "127" (some "i8")⟩]⟩ =
      [(⟨[], "x"⟩,
        [⟨.number, .number (.typed "127" .i8), .new "values.xml" false⟩])] := by
  refine ⟨by decide, by decide, by decide, by decide, by decide, by decide⟩


/-! ### parse_string_value lemmas (C4) -/

theorem findIdx_first (p : Char → Bool) :
    ∀ (l1 : List Char) (c : Char) (l2 : List Char) (i : Nat),
      (∀ x ∈ l1, p x = false) → p c = true →
      List.findIdx? p (l1 ++ c :: l2) i = some (i + l1.length)
  | [], c, l2, i, _, hc => by simp [List.findIdx?_cons, hc]
  | a :: as, c, l2, i, hall, hc => by
    have ha : p a = false := hall a (List.mem_cons_self _ _)
    rw [List.cons_append, List.findIdx?_cons, if_neg (by simp [ha]),
      findIdx_first p as c l2 (i + 1)
        (fun x hx => hall x (List.mem_cons_of_mem _ hx)) hc]
    congr 1
    simp only [List.length_cons]
    omega

/-- C4 counterexample: `"@string/a\tb"` contains internal whitespace (a
tab), so by the claim it should be an `InterpolatedString`; the code's
pure-reference test only excludes the space character `' '` and classifies
it as a pure `Reference` whose key contains the tab. -/
theorem parse_string_whitespace_counterexample :
    parseStringValue "@string/a\tb" = .reference "string" "a\tb" ∧
    ('\t' ∈ "@string/a\tb".toList ∧ '\t'.isWhitespace = true ∧
      '\t' ≠ ' ') := by
  exact ⟨by decide, by decide, by decide, by decide⟩

/-- C4 (amended): classification of a raw text value, with the
pure-reference test excluding the space character (not all whitespace). A
string that starts with its only `@`, has no space and a `/` after the `@`
becomes a pure `Reference` split at the first `/`; `"Welcome
@string/app_name!"` becomes the three-part `InterpolatedString`; a
malformed `@` with no following slash stays literal `@` text; a string
without `@` stays a plain `String`. -/
theorem parse_string_classification (s s' : String) (rt key : List Char)
    (hsp : containsChar s ' ' = false)
    (hat : countChar s '@' = 1)
    (hs : s.toList = '@' :: (rt ++ '/' :: key))
    (hns : ∀ c ∈ rt, ¬c = '/')
    (hat0 : containsChar s' '@' = false) :
    parseStringValue s = .reference (String.mk rt) (String.mk key) ∧
    parseStringValue "Welcome @string/app_name!" =
      .interpolatedString
        [.text "Welcome ", .reference "string" "app_name", .text "!"] ∧
    parseStringValue "a@b" =
      .interpolatedString [.text "a", .text "@", .text "b"] ∧
    parseStringValue s' = .string s' := by
  refine ⟨?_, by decide, by decide, ?_⟩
  · have hstarts :
        (match s.toList with | c :: _ => c = '@' | [] => false) = true := by
      rw [hs]
      simp
    have hdrop : s.toList.drop 1 = rt ++ '/' :: key := by rw [hs]; rfl
    have hsplit : splitFirstSlash (s.toList.drop 1) = some (rt, key) := by
      unfold splitFirstSlash
      rw [hdrop, findIdx_first (fun c => c = '/') rt '/' key 0
        (fun x hx => by simpa using hns x hx) (by simp)]
      simp only [Nat.zero_add]
      rw [List.take_left]
      have hform : rt ++ '/' :: key = (rt ++ ['/']) ++ key := by simp
      rw [hform]
      have hlen : rt.length + 1 = (rt ++ ['/']).length := by simp
      rw [hlen, List.drop_left]
    have hcond : ((match s.toList with
        | c :: _ => c = '@' | [] => false) = true) ∧
        ¬containsChar s ' ' = true ∧ countChar s '@' = 1 :=
      ⟨hstarts, by simp [hsp], hat⟩
    simp only [parseStringValue]
    rw [if_pos hcond, hsplit]
  · have hstarts :
        (match s'.toList with | c :: _ => c = '@' | [] => false) = false := by
      cases hl : s'.toList with
      | nil => rfl
      | cons c rest =>
        unfold containsChar at hat0
        rw [hl] at hat0
        simp only [List.any_cons, Bool.or_eq_false_iff] at hat0
        simpa using hat0.1
    have hcond : ¬(((match s'.toList with
        | c :: _ => c = '@' | [] => false) = true) ∧
        ¬containsChar s' ' ' = true ∧ countChar s' '@' = 1) := by
      rw [hstarts]
      simp
    simp only [parseStringValue]
    rw [if_neg hcond, hat0]
    simp


/-! ### Reference-resolution lemmas (C5) -/

theorem contains_eq_decide_mem (x : String) :
    ∀ vis : List String, vis.contains x = decide (x ∈ vis)
  | [] => by simp
  | a :: as => by
    simp [List.contains_cons, contains_eq_decide_mem x as, beq_eq_decide]

theorem refKey_mem :
    ∀ {all : ResMap} {rt key : String} {items : List (String × CgResourceValue)}
      {target : String × CgResourceValue},
      lookupResType all rt = some items →
      items.find? (fun e => e.1 = key) = some target →
      (rt ++ ":" ++ key) ∈ resMapRefKeys all := by
  intro all
  induction all with
  | nil => intro rt key items target hl; cases hl
  | cons e rest ih =>
    intro rt key items target hl hf
    obtain ⟨rt', its⟩ := e
    by_cases h : rt' = rt
    · subst h
      simp only [lookupResType, if_pos rfl] at hl
      cases hl
      have hmem := List.mem_of_find?_eq_some hf
      have hkey : target.1 = key := by simpa using List.find?_some hf
      unfold resMapRefKeys
      simp only [List.flatMap_cons, List.mem_append]
      exact Or.inl (by
        rw [← hkey]
        exact List.mem_map.mpr ⟨target, hmem, rfl⟩)
    · simp only [lookupResType, if_neg h] at hl
      unfold resMapRefKeys
      simp only [List.flatMap_cons, List.mem_append]
      exact Or.inr (ih hl hf)

theorem filter_unvisited_cons {vis : List String} :
    ∀ {l : List String}, l.Nodup → ∀ {a : String}, a ∈ l →
      vis.contains a = false →
      (l.filter (fun x => ¬(a :: vis).contains x)).length + 1 =
        (l.filter (fun x => ¬vis.contains x)).length := by
  intro l
  induction l with
  | nil => intro _ a ha; cases ha
  | cons b bs ih =>
    intro hnd a ha hna
    have hnd' := List.nodup_cons.mp hnd
    have hmemv : a ∉ vis := by
      rw [contains_eq_decide_mem] at hna
      simpa using hna
    by_cases hab : a = b
    · subst hab
      have hfa : (a :: vis).contains a = true := by
        simp [List.contains_cons, beq_eq_decide]
      have hqa : vis.contains a = false := hna
      rw [List.filter_cons, List.filter_cons, hfa, hqa]
      have hsame : bs.filter (fun x => ¬(a :: vis).contains x) =
          bs.filter (fun x => ¬vis.contains x) := by
        apply List.filter_congr
        intro x hx
        have hxa : x ≠ a := fun hh => hnd'.1 (hh ▸ hx)
        simp [List.contains_cons, beq_eq_decide, hxa]
      rw [hsame]
      simp
    · have ha' : a ∈ bs := by
        rcases List.mem_cons.mp ha with h | h
        · exact absurd h hab
        · exact h
      have hsameb : (a :: vis).contains b = vis.contains b := by
        have hba : b ≠ a := fun hh => hab hh.symm
        simp [List.contains_cons, beq_eq_decide, hba]
      rw [List.filter_cons, List.filter_cons, hsameb]
      cases hq : vis.contains b with
      | true =>
        simpa [hq] using ih hnd'.2 ha' hna
      | false =>
        have hrec := ih hnd'.2 ha' hna
        simp only [hq] at hrec ⊢
        simpa using hrec

theorem unvisited_cons {all : ResMap} {visited : List String}
    {refKey : String} (hmem : refKey ∈ resMapRefKeys all)
    (hnv : visited.contains refKey = false) :
    unvisitedCount all (refKey :: visited) + 1 =
      unvisitedCount all visited := by
  unfold unvisitedCount
  exact filter_unvisited_cons (List.nodup_dedup _)
    (List.mem_dedup.mpr hmem) hnv

theorem resolveParts_ne_none {m : Nat} {all : ResMap} {visited : List String}
    (hR : ∀ rt key, resolveStringValue m rt key all visited ≠ none) :
    ∀ (parts : List InterpolationPart) (acc : Option String), acc ≠ none →
      parts.foldl
        (fun acc part =>
          match acc with
          | none => none
          | some result =>
            match part with
            | .text t => some (result ++ t)
            | .reference resourceType key =>
              match resolveStringValue m resourceType key all visited with
              | none => none
              | some resolved =>
                some (result ++
                  match resolved with
                  | some str => str
                  | none => "@" ++ key))
        acc ≠ none
  | [], acc, hacc => hacc
  | part :: rest, acc, hacc => by
    rw [List.foldl_cons]
    cases hc : acc with
    | none => exact absurd hc hacc
    | some result =>
      cases part with
      | text t =>
        exact resolveParts_ne_none hR rest _ (by simp)
      | reference resourceType key =>
        cases hr : resolveStringValue m resourceType key all visited with
        | none => exact absurd hr (hR resourceType key)
        | some resolved =>
          simp only [hr]
          exact resolveParts_ne_none hR rest _ (by simp)

theorem resolve_extract_sufficient :
    ∀ n : Nat,
      (∀ rt key all visited, 2 * unvisitedCount all visited + 1 ≤ n →
        resolveStringValue n rt key all visited ≠ none) ∧
      (∀ v all visited, 2 * unvisitedCount all visited + 2 ≤ n →
        extractStringFromValue n v all visited ≠ none) := by
  intro n
  induction n using Nat.strong_induction_on with
  | _ n ih =>
    constructor
    · intro rt key all visited hfuel
      cases n with
      | zero => omega
      | succ m =>
        simp only [resolveStringValue]
        by_cases hv : (rt ++ ":" ++ key) ∈ visited
        · simp [hv]
        · have hv' : visited.contains (rt ++ ":" ++ key) = false := by
            rw [contains_eq_decide_mem]
            simpa using hv
          rw [hv']
          simp only [Bool.false_eq_true, if_false]
          cases hl : lookupResType all rt with
          | none => simp [hl]
          | some items =>
            simp only [hl]
            cases hf : items.find? (fun e => e.1 = key) with
            | none => simp [hf]
            | some target =>
              simp only [hf]
              have hmem := refKey_mem hl hf
              have hdec := unvisited_cons hmem hv'
              have hle : 2 * unvisitedCount all
                  ((rt ++ ":" ++ key) :: visited) + 2 ≤ m := by
                omega
              exact (ih m (Nat.lt_succ_self m)).2 target.2 all _ hle
    · intro v all visited hfuel
      cases n with
      | zero => omega
      | succ m =>
        simp only [extractStringFromValue]
        cases v with
        | reference resourceType key =>
          exact (ih m (Nat.lt_succ_self m)).1 resourceType key all visited
            (by omega)
        | interpolatedString parts =>
          have hR : ∀ rt key,
              resolveStringValue m rt key all visited ≠ none := by
            intro rt key
            exact (ih m (Nat.lt_succ_self m)).1 rt key all visited (by omega)
          have hfold := resolveParts_ne_none hR parts (some "") (by simp)
          cases hfoldEq : parts.foldl _ (some "") with
          | none => exact absurd hfoldEq hfold
          | some str => simp [hfoldEq]
        | string str => simp
        | int i => simp
        | float f => simp
        | bool b => simp
        | color c => simp
        | url u => simp
        | dimension d => simp
        | stringArray items => simp
        | intArray items => simp
        | floatArray items => simp
        | template t => simp


/-- Witness for `parse_string_classification`: `"@string/app_name"` is a
pure `Reference` and `"hello"` is a plain `String`. -/
theorem parse_string_classification_witness :
    parseStringValue "@string/app_name" = .reference "string" "app_name" ∧
    parseStringValue "hello" = .string "hello" := by
  have h := parse_string_classification "@string/app_name" "hello"
    "string".toList "app_name".toList
    (by decide) (by decide) (by decide) (by decide) (by decide)
  exact ⟨by rw [h.1]; decide, h.2.2.2⟩

/-- C5: with fuel at least the visited-set measure, reference resolution
always returns (the Rust recursion terminates); a reference whose
`type:key` is already in the visited set aborts that single resolution with
`None`; interpolation resolution always produces a string, substituting the
literal `@key` placeholder for an aborted reference; and on the
two-resource cycle (`a` references `b`, `b` references `a`) the emitted
constant for `a` resolves to the placeholder `@b` instead of looping or
failing the build. -/
theorem resolution_terminates (all : ResMap) (rt key : String)
    (visited : List String) (parts : List InterpolationPart) (fuel : Nat)
    (hfuel : 2 * unvisitedCount all visited + 1 ≤ fuel) :
    (∃ r, resolveStringValue fuel rt key all visited = some r) ∧
    ((rt ++ ":" ++ key) ∈ visited →
      resolveStringValue fuel rt key all visited = some none) ∧
    (∃ str, resolveInterpolationParts fuel parts all visited = some str) ∧
    emitInterpolatedResolution [.reference "string" "b"]
      [("string",
        [("a", .interpolatedString [.reference "string" "b"]),
         ("b", .interpolatedString [.reference "string" "a"])])] = "@b" := by
  refine ⟨?_, ?_, ?_, by decide⟩
  · have h := (resolve_extract_sufficient fuel).1 rt key all visited hfuel
    cases he : resolveStringValue fuel rt key all visited with
    | none => exact absurd he h
    | some r => exact ⟨r, rfl⟩
  · intro hv
    cases fuel with
    | zero => omega
    | succ m =>
      have hv' : visited.contains (rt ++ ":" ++ key) = true := by
        rw [contains_eq_decide_mem]
        simpa using hv
      simp only [resolveStringValue]
      rw [hv']
      simp
  · have hR : ∀ rt key,
        resolveStringValue fuel rt key all visited ≠ none := fun rt key =>
      (resolve_extract_sufficient fuel).1 rt key all visited hfuel
    have h2 : resolveInterpolationParts fuel parts all visited ≠ none := by
      unfold resolveInterpolationParts
      exact resolveParts_ne_none hR parts (some "") (by simp)
    cases he : resolveInterpolationParts fuel parts all visited with
    | none => exact absurd he h2
    | some str => exact ⟨str, rfl⟩

/-- Witness for `resolution_terminates`: the cycle map with `string:a`
already visited. -/
theorem resolution_terminates_witness :
    (∃ r, resolveStringValue 6 "string" "a"
      [("string",
        [("a", .interpolatedString [.reference "string" "b"]),
         ("b", .interpolatedString [.reference "string" "a"])])]
      ["string:a"] = some r) ∧
    resolveStringValue 6 "string" "a"
      [("string",
        [("a", .interpolatedString [.reference "string" "b"]),
         ("b", .interpolatedString [.reference "string" "a"])])]
      ["string:a"] = some none := by
  have h := resolution_terminates
    [("string",
      [("a", .interpolatedString [.reference "string" "b"]),
       ("b", .interpolatedString [.reference "string" "a"])])]
    "string" "a" ["string:a"] [] 6 (by decide)
  exact ⟨h.1, h.2.1 (by decide)⟩


/-! ### Duplicate analysis and emission lemmas (C1) -/

theorem validate_go (opts : ValidationOptions) :
    ∀ (g : ResourceGraph) (acc : AnalysisResult),
      g.foldl
        (fun result entry =>
          let (key, nodes) := entry
          if nodes.length > 1 then
            let message := duplicateMessage key nodes
            if opts.treatDuplicatesAsErrors then
              { result with errors := result.errors ++ [⟨message, some key⟩] }
            else
              { result with
                warnings := result.warnings ++ [⟨message, some key⟩] }
          else result) acc =
      ⟨acc.warnings ++ (validateWithOptions g opts).warnings,
       acc.errors ++ (validateWithOptions g opts).errors⟩
  | [], acc => by
    cases acc
    simp [validateWithOptions]
  | e :: rest, acc => by
    obtain ⟨key, nodes⟩ := e
    have hrec := validate_go opts rest
    show List.foldl _ _ rest = _
    rw [hrec]
    have hhead : validateWithOptions ((key, nodes) :: rest) opts =
        ⟨(if nodes.length > 1 ∧ opts.treatDuplicatesAsErrors = false then
            [⟨duplicateMessage key nodes, some key⟩] else []) ++
          (validateWithOptions rest opts).warnings,
         (if nodes.length > 1 ∧ opts.treatDuplicatesAsErrors = true then
            [⟨duplicateMessage key nodes, some key⟩] else []) ++
          (validateWithOptions rest opts).errors⟩ := by
      show List.foldl _ _ rest = _
      rw [hrec]
      by_cases h1 : nodes.length > 1
      · by_cases h2 : opts.treatDuplicatesAsErrors = true
        · simp [h1, h2]
        · simp [h1, h2, Bool.eq_false_iff.mpr h2]
      · simp [h1]
    rw [hhead]
    by_cases h1 : nodes.length > 1
    · by_cases h2 : opts.treatDuplicatesAsErrors = true
      · simp [h1, h2]
      · simp [h1, h2, Bool.eq_false_iff.mpr h2]
    · simp [h1]

theorem validateWithOptions_cons (key : ResourceKey)
    (nodes : List ResourceNode) (rest : ResourceGraph)
    (opts : ValidationOptions) :
    validateWithOptions ((key, nodes) :: rest) opts =
      ⟨(if nodes.length > 1 ∧ opts.treatDuplicatesAsErrors = false then
          [⟨duplicateMessage key nodes, some key⟩] else []) ++
        (validateWithOptions rest opts).warnings,
       (if nodes.length > 1 ∧ opts.treatDuplicatesAsErrors = true then
          [⟨duplicateMessage key nodes, some key⟩] else []) ++
        (validateWithOptions rest opts).errors⟩ := by
  show List.foldl _ _ rest = _
  rw [validate_go opts rest]
  by_cases h1 : nodes.length > 1
  · by_cases h2 : opts.treatDuplicatesAsErrors = true
    · simp [h1, h2]
    · simp [h1, h2, Bool.eq_false_iff.mpr h2]
  · simp [h1]

theorem validate_filter_absent (opts : ValidationOptions) :
    ∀ (g : ResourceGraph) (key : ResourceKey), (∀ e ∈ g, e.1 ≠ key) →
      (validateWithOptions g opts).warnings.filter
        (fun w => w.key = some key) = [] ∧
      (validateWithOptions g opts).errors.filter
        (fun e => e.key = some key) = []
  | [], key, _ => by constructor <;> rfl
  | e :: rest, key, habs => by
    obtain ⟨k, ns⟩ := e
    have hk : k ≠ key := habs (k, ns) (List.mem_cons_self _ _)
    have hrec := validate_filter_absent opts rest key
      (fun e he => habs e (List.mem_cons_of_mem _ he))
    rw [validateWithOptions_cons]
    simp only [List.filter_append]
    rw [hrec.1, hrec.2]
    constructor <;>
      · split
        · simp [hk]
        · simp

theorem validate_filter_key (opts : ValidationOptions) :
    ∀ (g : ResourceGraph) (key : ResourceKey) (nodes : List ResourceNode),
      (g.map (fun e => e.1)).Nodup → (key, nodes) ∈ g → nodes.length > 1 →
      ((validateWithOptions g opts).warnings.filter
          (fun w => w.key = some key) =
        if opts.treatDuplicatesAsErrors then []
        else [⟨duplicateMessage key nodes, some key⟩]) ∧
      ((validateWithOptions g opts).errors.filter
          (fun e => e.key = some key) =
        if opts.treatDuplicatesAsErrors then
          [⟨duplicateMessage key nodes, some key⟩]
        else [])
  | [], key, nodes, _, hmem, _ => by cases hmem
  | e :: rest, key, nodes, hnodup, hmem, hlen => by
    obtain ⟨k, ns⟩ := e
    simp only [List.map_cons, List.nodup_cons] at hnodup
    rw [validateWithOptions_cons]
    simp only [List.filter_append]
    rcases List.mem_cons.mp hmem with h | h
    · cases h
      have habs : ∀ e ∈ rest, e.1 ≠ key := by
        intro e he hk
        exact hnodup.1 (hk ▸ List.mem_map.mpr ⟨e, he, rfl⟩)
      have hrest := validate_filter_absent opts rest key habs
      rw [hrest.1, hrest.2]
      by_cases h2 : opts.treatDuplicatesAsErrors = true
      · constructor
        · simp [hlen, h2]
        · simp [hlen, h2]
      · constructor
        · simp [hlen, h2, Bool.eq_false_iff.mpr h2]
        · simp [hlen, h2]
    · have hk : k ≠ key := by
        intro hk
        exact hnodup.1 (hk ▸ List.mem_map.mpr ⟨(key, nodes), h, rfl⟩)
      have hrec := validate_filter_key opts rest key nodes hnodup.2 h hlen
      rw [hrec.1, hrec.2]
      constructor <;>
        · split
          · simp [hk]
          · simp

theorem validate_default_no_errors :
    ∀ g : ResourceGraph, (validateWithOptions g ⟨false⟩).errors = []
  | [] => rfl
  | e :: rest => by
    obtain ⟨k, ns⟩ := e
    rw [validateWithOptions_cons]
    simp [validate_default_no_errors rest]

theorem validate_strict_no_warnings :
    ∀ g : ResourceGraph, (validateWithOptions g ⟨true⟩).warnings = []
  | [] => rfl
  | e :: rest => by
    obtain ⟨k, ns⟩ := e
    rw [validateWithOptions_cons]
    simp [validate_strict_no_warnings rest]

theorem lookup_primaryize :
    ∀ (g : ResourceGraph) (k : ResourceKey),
      (primaryize g).lookup k = (g.lookup k).map (fun l => l.take 1)
  | [], _ => rfl
  | (k', ns) :: rest, k => by
    by_cases h : k' = k
    · simp [primaryize, ResourceGraph.lookup, h]
    · simp only [primaryize, List.map_cons, ResourceGraph.lookup, if_neg h]
      exact lookup_primaryize rest k

theorem emitKeyCode_primaryize (g : ResourceGraph)
    (dupInfo : List (ResourceKey × String)) (key : ResourceKey)
    (indent : Nat) :
    emitKeyCode (primaryize g) dupInfo key indent =
      emitKeyCode g dupInfo key indent := by
  unfold emitKeyCode ResourceGraph.getAll
  rw [lookup_primaryize]
  cases g.lookup key with
  | none => rfl
  | some l =>
    cases l with
    | nil => rfl
    | cons a t => rfl

theorem foldl_emit_primaryize (g : ResourceGraph)
    (dupInfo : List (ResourceKey × String)) (indent : Nat) :
    ∀ (ks : List ResourceKey) (acc : String),
      ks.foldl (fun acc key =>
        acc ++ emitKeyCode (primaryize g) dupInfo key indent) acc =
      ks.foldl (fun acc key =>
        acc ++ emitKeyCode g dupInfo key indent) acc
  | [], _ => rfl
  | k :: ks, acc => by
    rw [List.foldl_cons, List.foldl_cons, emitKeyCode_primaryize]
    exact foldl_emit_primaryize g dupInfo indent ks _

mutual
theorem emitNsTree_primaryize (g : ResourceGraph)
    (dupInfo : List (ResourceKey × String)) :
    ∀ (t : NsTree) (indent : Nat),
      emitNsTree (primaryize g) dupInfo t indent =
        emitNsTree g dupInfo t indent
  | .mk children keys, indent => by
    rw [emitNsTree, emitNsTree,
      emitNsForest_primaryize g dupInfo children indent]
    congr 1
    exact foldl_emit_primaryize g dupInfo indent keys ""

theorem emitNsForest_primaryize (g : ResourceGraph)
    (dupInfo : List (ResourceKey × String)) :
    ∀ (f : NsForest) (indent : Nat),
      emitNsForest (primaryize g) dupInfo f indent =
        emitNsForest g dupInfo f indent
  | .nil, _ => rfl
  | .cons name child rest, indent => by
    rw [emitNsForest, emitNsForest,
      emitNsTree_primaryize g dupInfo child (indent + 4),
      emitNsForest_primaryize g dupInfo rest indent]
end


set_option maxRecDepth 8192 in
/-- C1: a key with exactly two nodes yields exactly one diagnostic naming
the key, the count `2`, the primary file and the other file — a warning by
default (no errors), an error when `treat_duplicates_as_errors` is set (no
warnings), which halts the build; generation consults only each key's first
node (emission over `g` equals emission over the primary-truncated graph);
and on the concrete two-file pipeline the generated output annotates the
constant but contains only the first file's value. -/
theorem duplicate_detection_and_first_wins
    (g : ResourceGraph) (key : ResourceKey) (n0 n1 : ResourceNode)
    (dupInfo : List (ResourceKey × String)) (t : NsTree) (indent : Nat)
    (hnodup : (g.map (fun e => e.1)).Nodup)
    (hmem : (key, [n0, n1]) ∈ g) :
    ((validateWithOptions g ⟨false⟩).warnings.filter
        (fun w => w.key = some key) =
      [⟨duplicateMessage key [n0, n1], some key⟩]) ∧
    (validateWithOptions g ⟨false⟩).errors = [] ∧
    ((validateWithOptions g ⟨true⟩).errors.filter
        (fun e => e.key = some key) =
      [⟨duplicateMessage key [n0, n1], some key⟩]) ∧
    (validateWithOptions g ⟨true⟩).warnings = [] ∧
    duplicateMessage key [n0, n1] =
      "Duplicate resource key '" ++ key.fullName ++ "' defined in " ++
        toString (2 : Nat) ++ " files. Using '" ++ n0.origin.file ++
        "' (first occurrence). Duplicates in: " ++ n1.origin.file ∧
    buildHaltsOnErrors (validateWithOptions g ⟨true⟩) = true ∧
    buildHaltsOnErrors (validateWithOptions g ⟨false⟩) = false ∧
    emitNsTree g dupInfo t indent =
      emitNsTree (primaryize g) dupInfo t indent ∧
    containsSubstring
      (generateRModule
        (fromParsedFiles
          [⟨"file1.xml", false, [⟨"title", .string, .text "First"⟩]⟩,
           ⟨"file2.xml", false, [⟨"title", .string, .text "Second"⟩]⟩])
        (validate
          (fromParsedFiles
            [⟨"file1.xml", false, [⟨"title", .string, .text "First"⟩]⟩,
             ⟨"file2.xml", false,
               [⟨"title", .string, .text "Second"⟩]⟩])).warnings)
      "First" = true ∧
    containsSubstring
      (generateRModule
        (fromParsedFiles
          [⟨"file1.xml", false, [⟨"title", .string, .text "First"⟩]⟩,
           ⟨"file2.xml", false, [⟨"title", .string, .text "Second"⟩]⟩])
        (validate
          (fromParsedFiles
            [⟨"file1.xml", false, [⟨"title", .string, .text "First"⟩]⟩,
             ⟨"file2.xml", false,
               [⟨"title", .string, .text "Second"⟩]⟩])).warnings)
      "Second" = false := by
  have hflt := validate_filter_key ⟨false⟩ g key [n0, n1] hnodup hmem
    (by simp)
  have hflt2 := validate_filter_key ⟨true⟩ g key [n0, n1] hnodup hmem
    (by simp)
  refine ⟨?_, validate_default_no_errors g, ?_, validate_strict_no_warnings g,
    ?_, ?_, ?_, (emitNsTree_primaryize g dupInfo t indent).symm,
    by decide, by decide⟩
  · simpa using hflt.1
  · simpa using hflt2.2
  · show duplicateMessage key [n0, n1] = _
    unfold duplicateMessage
    rfl
  · unfold buildHaltsOnErrors
    have herr := hflt2.2
    rw [if_pos rfl] at herr
    cases he : (validateWithOptions g ⟨true⟩).errors with
    | nil => rw [he] at herr; simp at herr
    | cons a l => simp
  · unfold buildHaltsOnErrors
    rw [validate_default_no_errors g]
    rfl

/-- Witness for `duplicate_detection_and_first_wins`: the two-file `title`
graph. -/
theorem duplicate_detection_witness :
    ((validateWithOptions
        [(⟨[], "title"⟩,
          [⟨.string, .string "First", .new "file1.xml" false⟩,
           ⟨.string, .string "Second", .new "file2.xml" false⟩])]
        ⟨false⟩).warnings.filter
          (fun w => w.key = some ⟨[], "title"⟩) =
      [⟨duplicateMessage ⟨[], "title"⟩
          [⟨.string, .string "First", .new "file1.xml" false⟩,
           ⟨.string, .string "Second", .new "file2.xml" false⟩],
        some ⟨[], "title"⟩⟩]) ∧
    buildHaltsOnErrors
      (validateWithOptions
        [(⟨[], "title"⟩,
          [⟨.string, .string "First", .new "file1.xml" false⟩,
           ⟨.string, .string "Second", .new "file2.xml" false⟩])]
        ⟨true⟩) = true := by
  have h := duplicate_detection_and_first_wins
    [(⟨[], "title"⟩,
      [⟨.string, .string "First", .new "file1.xml" false⟩,
       ⟨.string, .string "Second", .new "file2.xml" false⟩])]
    ⟨[], "title"⟩
    ⟨.string, .string "First", .new "file1.xml" false⟩
    ⟨.string, .string "Second", .new "file2.xml" false⟩
    [] (.mk .nil []) 0 (by decide) (by decide)
  exact ⟨h.1, h.2.2.2.2.2.1⟩


/-! ### Profile preprocessing lemmas (C6, C10) -/

theorem preprocessLoop_error (xml profile : String)
    (rest : List (Except Unit XmlEvent)) :
    ∀ (evs : List XmlEvent) (skipDepth : Nat) (out : String),
      preprocessLoop xml profile (evs.map .ok ++ .error () :: rest)
        skipDepth out = xml
  | [], _, _ => rfl
  | e :: evs, skipDepth, out => by
    cases e with
    | start name attrs =>
      simp only [List.map_cons, List.cons_append, preprocessLoop]
      exact preprocessLoop_error xml profile rest evs _ _
    | empty name attrs =>
      simp only [List.map_cons, List.cons_append, preprocessLoop]
      exact preprocessLoop_error xml profile rest evs _ _
    | text s0 =>
      simp only [List.map_cons, List.cons_append, preprocessLoop]
      exact preprocessLoop_error xml profile rest evs _ _
    | stop name =>
      simp only [List.map_cons, List.cons_append, preprocessLoop]
      split
      · exact preprocessLoop_error xml profile rest evs _ _
      · exact preprocessLoop_error xml profile rest evs _ _
    | other =>
      simp only [List.map_cons, List.cons_append, preprocessLoop]
      exact preprocessLoop_error xml profile rest evs _ _

/-- C10: if the XML reader produces an error at any point of the stream,
`preprocess_xml` returns the original input text unchanged, whatever was
already processed or pending. -/
theorem preprocess_error_returns_original (xml profile : String)
    (pre : List XmlEvent) (rest : List (Except Unit XmlEvent)) :
    preprocessXml xml profile (pre.map .ok ++ .error () :: rest) = xml :=
  preprocessLoop_error xml profile rest pre 0 ""

mutual
theorem skip_node (xml profile : String) :
    ∀ (n : XmlNode) (rest : List (Except Unit XmlEvent)) (d : Nat)
      (out : String),
      preprocessLoop xml profile ((nodeEvents n).map .ok ++ rest) (d + 1)
        out = preprocessLoop xml profile rest (d + 1) out
  | .elem name attrs true children, rest, d, out => by
    simp only [nodeEvents, List.map_cons, List.map_nil, List.cons_append,
      List.nil_append, preprocessLoop]
    simp
  | .elem name attrs false children, rest, d, out => by
    simp only [nodeEvents, List.append_eq, List.map_cons, List.map_append,
      List.map_nil, List.cons_append, List.append_assoc, List.nil_append,
      preprocessLoop]
    rw [if_pos (by omega : d + 1 > 0)]
    rw [if_neg (by omega : ¬d + 1 + 1 = 0)]
    rw [skip_forest xml profile children _ (d + 1) out]
    simp only [preprocessLoop]
    rw [if_pos (by omega : d + 1 + 1 > 0)]
    have hsub : d + 1 + 1 - 1 = d + 1 := by omega
    rw [hsub]
  | .text str, rest, d, out => by
    simp only [nodeEvents, List.map_cons, List.map_nil, List.cons_append,
      List.nil_append, preprocessLoop]
    simp

theorem skip_forest (xml profile : String) :
    ∀ (ts : List XmlNode) (rest : List (Except Unit XmlEvent)) (d : Nat)
      (out : String),
      preprocessLoop xml profile ((forestEvents ts).map .ok ++ rest) (d + 1)
        out = preprocessLoop xml profile rest (d + 1) out
  | [], _, _, _ => by simp [forestEvents]
  | t :: ts, rest, d, out => by
    simp only [forestEvents, List.map_append, List.append_assoc]
    rw [skip_node xml profile t _ d out, skip_forest xml profile ts rest d out]
end


theorem serializeForest_append (a b : List XmlNode) :
    serializeForest (a ++ b) = serializeForest a ++ serializeForest b := by
  induction a with
  | nil => simp [serializeForest, String.empty_append]
  | cons t ts ih => simp [serializeForest, ih, String.append_assoc]

mutual
theorem keep_node (xml profile : String) :
    ∀ (n : XmlNode) (rest : List (Except Unit XmlEvent)) (out : String),
      preprocessLoop xml profile ((nodeEvents n).map .ok ++ rest) 0 out
        = preprocessLoop xml profile rest 0
            (out ++ serializeForest (filterNode profile n))
  | .elem name attrs true children, rest, out => by
    simp only [nodeEvents, List.map_cons, List.map_nil, List.cons_append,
      List.nil_append, preprocessLoop, filterNode]
    cases hp : extractProfileAttr attrs with
    | none =>
      simp [serializeForest, serializeNode, String.append_empty]
    | some p =>
      by_cases hpe : p = profile
      · simp [hpe, serializeForest, serializeNode, String.append_empty]
      · simp [hpe, serializeForest, String.append_empty]
  | .elem name attrs false children, rest, out => by
    simp only [nodeEvents, List.append_eq, List.map_cons, List.map_append,
      List.map_nil, List.cons_append, List.append_assoc, List.nil_append,
      preprocessLoop, filterNode]
    cases hp : extractProfileAttr attrs with
    | none =>
      simp only [hp]
      rw [if_neg (by omega : ¬(0 : Nat) > 0)]
      rw [if_pos rfl]
      rw [keep_forest xml profile children _ _]
      simp only [preprocessLoop]
      rw [if_neg (by omega : ¬(0 : Nat) > 0)]
      simp only [serializeForest, serializeNode, String.append_empty,
        String.append_assoc]
    | some p =>
      simp only [hp]
      by_cases hpe : p = profile
      · rw [if_neg (by omega : ¬(0 : Nat) > 0)]
        rw [if_neg (fun h => h hpe)]
        rw [if_pos rfl]
        rw [keep_forest xml profile children _ _]
        simp only [preprocessLoop]
        rw [if_neg (by omega : ¬(0 : Nat) > 0)]
        rw [if_pos hpe]
        simp only [serializeForest, serializeNode, String.append_empty,
          String.append_assoc]
      · rw [if_neg (by omega : ¬(0 : Nat) > 0)]
        rw [if_pos hpe]
        rw [if_neg (by omega : ¬(1 : Nat) = 0)]
        rw [show (1 : Nat) = 0 + 1 from rfl,
          skip_forest xml profile children _ 0 out]
        simp only [preprocessLoop]
        rw [if_pos (by omega : (0 : Nat) + 1 > 0)]
        rw [if_neg hpe]
        simp only [serializeForest, String.append_empty, Nat.add_sub_cancel]
  | .text str, rest, out => by
    simp only [nodeEvents, List.map_cons, List.map_nil, List.cons_append,
      List.nil_append, preprocessLoop, filterNode]
    simp [serializeForest, serializeNode, String.append_empty]

theorem keep_forest (xml profile : String) :
    ∀ (ts : List XmlNode) (rest : List (Except Unit XmlEvent)) (out : String),
      preprocessLoop xml profile ((forestEvents ts).map .ok ++ rest) 0 out
        = preprocessLoop xml profile rest 0
            (out ++ serializeForest (filterForest profile ts))
  | [], rest, out => by
    simp [forestEvents, filterForest, serializeForest, String.append_empty]
  | t :: ts, rest, out => by
    simp only [forestEvents, List.map_append, List.append_assoc]
    rw [keep_node xml profile t _ out, keep_forest xml profile ts rest _]
    simp only [filterForest, serializeForest_append, String.append_assoc]
end


/-- C6: for every input XML text and active profile, preprocessing the
reader's event stream of a document forest removes exactly the elements
(together with their whole subtrees) whose `profile` attribute differs from
the active profile, keeps elements whose attribute equals the profile and
elements carrying no such attribute, and re-emits the kept start/empty/end
tags with their attributes and the kept text nodes: the output is the
serialization of the profile-filtered forest. -/
theorem profile_filter_removes_nonmatching (xml profile : String)
    (forest : List XmlNode) :
    preprocessXml xml profile ((forestEvents forest).map .ok)
      = serializeForest (filterForest profile forest) := by
  have h := keep_forest xml profile forest [] ""
  simpa [preprocessXml, preprocessLoop, String.empty_append] using h


/-! ### Flat alias lemmas (C7) -/

theorem lookupAlias_upsert_self (p a : String) :
    ∀ (A : List (String × String)),
      lookupAlias (upsertAlias A p a) p = some a
  | [] => by simp [upsertAlias, lookupAlias]
  | (q, b) :: A => by
    by_cases hq : q = p
    · simp [upsertAlias, lookupAlias, hq]
    · simp only [upsertAlias, if_neg hq, lookupAlias]
      exact lookupAlias_upsert_self p a A

theorem lookupAlias_upsert_other (p q a : String) (hpq : ¬q = p) :
    ∀ (A : List (String × String)),
      lookupAlias (upsertAlias A q a) p = lookupAlias A p
  | [] => by simp [upsertAlias, lookupAlias, hpq]
  | (r, b) :: A => by
    by_cases hr : r = q
    · simp only [upsertAlias, if_pos hr, lookupAlias]
      have hrp : ¬r = p := fun hc => hpq (hr.symm.trans hc)
      rw [if_neg hrp, if_neg hrp]
    · simp only [upsertAlias, if_neg hr, lookupAlias]
      by_cases hrp : r = p
      · rw [if_pos hrp, if_pos hrp]
      · rw [if_neg hrp, if_neg hrp]
        exact lookupAlias_upsert_other p q a hpq A

theorem lookupAlias_pathsFoldl_not_mem (entries : List ResourceEntry)
    (p : String) :
    ∀ (paths : List String) (A : List (String × String)), p ∉ paths →
      lookupAlias
        (paths.foldl
          (fun a path => upsertAlias a path (computeMinimalAlias path entries))
          A) p = lookupAlias A p := by
  intro paths
  induction paths with
  | nil => intro A _; rfl
  | cons q paths ih =>
    intro A h
    have hq : ¬q = p := fun hc => h (hc ▸ List.mem_cons_self q paths)
    rw [List.foldl_cons, ih _ (fun hc => h (List.mem_cons_of_mem q hc)),
      lookupAlias_upsert_other p q _ hq A]

theorem lookupAlias_pathsFoldl_mem (entries : List ResourceEntry)
    (p : String) :
    ∀ (paths : List String) (A : List (String × String)), p ∈ paths →
      lookupAlias
        (paths.foldl
          (fun a path => upsertAlias a path (computeMinimalAlias path entries))
          A) p = some (computeMinimalAlias p entries) := by
  intro paths
  induction paths with
  | nil => intro A h; exact absurd h (List.not_mem_nil p)
  | cons q paths ih =>
    intro A h
    rw [List.foldl_cons]
    by_cases hmem : p ∈ paths
    · exact ih _ hmem
    · have hq : q = p := by
        rcases List.mem_cons.mp h with h | h
        · exact h.symm
        · exact absurd h hmem
      subst hq
      rw [lookupAlias_pathsFoldl_not_mem entries q paths _ hmem,
        lookupAlias_upsert_self q _ A]

theorem lookupAlias_groupsFoldl_not_mem (entries : List ResourceEntry)
    (p : String) :
    ∀ (gs : List (String × List String)) (A : List (String × String)),
      (∀ g ∈ gs, p ∉ g.2) →
      lookupAlias (gs.foldl (aliasStep entries) A) p = lookupAlias A p := by
  intro gs
  induction gs with
  | nil => intro A _; rfl
  | cons g gs ih =>
    intro A h
    obtain ⟨k, ps⟩ := g
    rw [List.foldl_cons, ih _ (fun g hg => h g (List.mem_cons_of_mem _ hg))]
    have hps : p ∉ ps := h (k, ps) (List.mem_cons_self _ _)
    cases ps with
    | nil => rfl
    | cons q qs =>
      cases qs with
      | nil =>
        have hq : ¬q = p := fun hc => hps (by simp [hc])
        exact lookupAlias_upsert_other p q k hq A
      | cons q₂ qs₂ =>
        exact lookupAlias_pathsFoldl_not_mem entries p _ A hps

theorem add_fst (e : ResourceEntry) :
    ∀ (G : List (String × List String)),
      (leafGroups.add e G).map Prod.fst =
        if leafUpper e ∈ G.map Prod.fst then G.map Prod.fst
        else G.map Prod.fst ++ [leafUpper e]
  | [] => by simp [leafGroups.add]
  | (k, ps) :: G => by
    by_cases hk : k = leafUpper e
    · simp [leafGroups.add, hk]
    · rw [show leafGroups.add e ((k, ps) :: G) = (k, ps) :: leafGroups.add e G
        from by simp [leafGroups.add, hk]]
      simp only [List.map_cons, add_fst e G]
      by_cases hm : leafUpper e ∈ G.map Prod.fst
      · rw [if_pos hm, if_pos (List.mem_cons_of_mem k hm)]
      · rw [if_neg hm, if_neg (fun hc => by
          rcases List.mem_cons.mp hc with h | h
          · exact hk h.symm
          · exact hm h), List.cons_append]

theorem mem_add_fst (e : ResourceEntry) (G : List (String × List String)) :
    leafUpper e ∈ (leafGroups.add e G).map Prod.fst := by
  rw [add_fst]
  by_cases hm : leafUpper e ∈ G.map Prod.fst
  · rw [if_pos hm]; exact hm
  · rw [if_neg hm]
    exact List.mem_append_right _ (List.mem_cons_self _ _)

theorem fst_subset_add (e : ResourceEntry) (G : List (String × List String)) :
    G.map Prod.fst ⊆ (leafGroups.add e G).map Prod.fst := by
  rw [add_fst]
  by_cases hm : leafUpper e ∈ G.map Prod.fst
  · rw [if_pos hm]; exact List.Subset.refl _
  · rw [if_neg hm]; exact List.subset_append_left _ _

theorem add_nodup_fst (e : ResourceEntry) (G : List (String × List String))
    (h : (G.map Prod.fst).Nodup) :
    ((leafGroups.add e G).map Prod.fst).Nodup := by
  rw [add_fst]
  by_cases hm : leafUpper e ∈ G.map Prod.fst
  · rw [if_pos hm]; exact h
  · rw [if_neg hm]
    refine List.Nodup.append h (List.nodup_singleton _) ?_
    intro a ha hb
    rw [List.mem_singleton] at hb
    subst hb
    exact hm ha

theorem add_mem_of_ne (e : ResourceEntry) (k : String) (ps : List String)
    (hk : ¬k = leafUpper e) :
    ∀ (G : List (String × List String)),
      (k, ps) ∈ leafGroups.add e G → (k, ps) ∈ G
  | [], h => by
    rw [show leafGroups.add e [] = [(leafUpper e, [e.fullPath])] from rfl]
      at h
    exact absurd (congrArg Prod.fst (List.mem_singleton.mp h)) hk
  | (k', ps') :: G, h => by
    by_cases hk' : k' = leafUpper e
    · rw [show leafGroups.add e ((k', ps') :: G)
          = (k', ps' ++ [e.fullPath]) :: G from by simp [leafGroups.add, hk']]
        at h
      rcases List.mem_cons.mp h with h | h
      · exact absurd (congrArg Prod.fst h)
          (fun hc => hk (hc.trans hk'))
      · exact List.mem_cons_of_mem _ h
    · rw [show leafGroups.add e ((k', ps') :: G)
          = (k', ps') :: leafGroups.add e G from by simp [leafGroups.add, hk']]
        at h
      rcases List.mem_cons.mp h with h | h
      · exact h ▸ List.mem_cons_self _ _
      · exact List.mem_cons_of_mem _ (add_mem_of_ne e k ps hk G h)

theorem add_mem_eq (e : ResourceEntry) (ps : List String) :
    ∀ (G : List (String × List String)), (G.map Prod.fst).Nodup →
      (leafUpper e, ps) ∈ leafGroups.add e G →
      (∃ ps₀, (leafUpper e, ps₀) ∈ G ∧ ps = ps₀ ++ [e.fullPath]) ∨
        (leafUpper e ∉ G.map Prod.fst ∧ ps = [e.fullPath])
  | [], _, h => by
    rw [show leafGroups.add e [] = [(leafUpper e, [e.fullPath])] from rfl]
      at h
    right
    exact ⟨by simp, congrArg Prod.snd (List.mem_singleton.mp h)⟩
  | (k', ps') :: G, hnd, h => by
    have hnd' : (G.map Prod.fst).Nodup := (List.nodup_cons.mp hnd).2
    have hk'nm : k' ∉ G.map Prod.fst := by
      simpa using (List.nodup_cons.mp hnd).1
    by_cases hk' : k' = leafUpper e
    · rw [show leafGroups.add e ((k', ps') :: G)
          = (k', ps' ++ [e.fullPath]) :: G from by simp [leafGroups.add, hk']]
        at h
      rcases List.mem_cons.mp h with h | h
      · refine Or.inl ⟨ps', ?_, congrArg Prod.snd h⟩
        rw [show (leafUpper e, ps') = (k', ps') from by rw [hk']]
        exact List.mem_cons_self _ _
      · exact absurd (hk' ▸ List.mem_map_of_mem Prod.fst h) hk'nm
    · rw [show leafGroups.add e ((k', ps') :: G)
          = (k', ps') :: leafGroups.add e G from by simp [leafGroups.add, hk']]
        at h
      rcases List.mem_cons.mp h with h | h
      · exact absurd (congrArg Prod.fst h).symm hk'
      · rcases add_mem_eq e ps G hnd' h with ⟨ps₀, hmem, hps⟩ | ⟨hnm, hps⟩
        · exact Or.inl ⟨ps₀, List.mem_cons_of_mem _ hmem, hps⟩
        · refine Or.inr ⟨fun hc => ?_, hps⟩
          rcases List.mem_cons.mp hc with h | h
          · exact hk' h.symm
          · exact hnm h


theorem foldl_add_nodup :
    ∀ (es : List ResourceEntry) (G : List (String × List String)),
      (G.map Prod.fst).Nodup →
      ((es.foldl (fun groups e => leafGroups.add e groups) G).map
        Prod.fst).Nodup
  | [], _, h => h
  | e :: es, G, h =>
    foldl_add_nodup es (leafGroups.add e G) (add_nodup_fst e G h)

theorem foldl_add_fst_mono :
    ∀ (es : List ResourceEntry) (G : List (String × List String)),
      G.map Prod.fst ⊆
        (es.foldl (fun groups e => leafGroups.add e groups) G).map Prod.fst
  | [], _ => List.Subset.refl _
  | e :: es, G =>
    fun a ha => foldl_add_fst_mono es (leafGroups.add e G)
      (fst_subset_add e G ha)

theorem foldl_add_exists :
    ∀ (es : List ResourceEntry) (G : List (String × List String))
      (e : ResourceEntry), e ∈ es →
      leafUpper e ∈
        (es.foldl (fun groups x => leafGroups.add x groups) G).map Prod.fst
  | e' :: es, G, e, hmem => by
    rcases List.mem_cons.mp hmem with h | h
    · subst h
      exact foldl_add_fst_mono es (leafGroups.add e G) (mem_add_fst e G)
    · exact foldl_add_exists es (leafGroups.add e' G) e h

theorem foldl_add_mem :
    ∀ (es : List ResourceEntry) (G : List (String × List String)),
      (G.map Prod.fst).Nodup →
      ∀ (k : String) (ps : List String),
      (k, ps) ∈ es.foldl (fun groups e => leafGroups.add e groups) G →
      (∃ ps₀, (k, ps₀) ∈ G ∧
        ps = ps₀ ++ ((es.filter (fun x => decide (leafUpper x = k))).map
          (fun x => x.fullPath))) ∨
      (k ∉ G.map Prod.fst ∧
        ps = (es.filter (fun x => decide (leafUpper x = k))).map
          (fun x => x.fullPath))
  | [], G, _, k, ps, h => by
    left
    exact ⟨ps, h, by simp⟩
  | e :: es, G, hnd, k, ps, h => by
    have hrec := foldl_add_mem es (leafGroups.add e G) (add_nodup_fst e G hnd)
      k ps h
    by_cases hke : leafUpper e = k
    · subst hke
      have hfil : (e :: es).filter
          (fun x => decide (leafUpper x = leafUpper e))
          = e :: es.filter (fun x => decide (leafUpper x = leafUpper e)) := by
        simp [List.filter_cons]
      rcases hrec with ⟨ps₀, hmem, hps⟩ | ⟨hnm, _⟩
      · rcases add_mem_eq e ps₀ G hnd hmem with ⟨ps₁, hmem₁, hps₁⟩ |
          ⟨hnm₁, hps₁⟩
        · left
          refine ⟨ps₁, hmem₁, ?_⟩
          rw [hps, hps₁, hfil, List.map_cons, List.append_assoc,
            List.singleton_append]
        · right
          refine ⟨hnm₁, ?_⟩
          rw [hps, hps₁, hfil, List.map_cons, List.singleton_append]
      · exact absurd (mem_add_fst e G) hnm
    · have hfil : (e :: es).filter (fun x => decide (leafUpper x = k))
          = es.filter (fun x => decide (leafUpper x = k)) := by
        simp [List.filter_cons, hke]
      rcases hrec with ⟨ps₀, hmem, hps⟩ | ⟨hnm, hps⟩
      · left
        exact ⟨ps₀, add_mem_of_ne e k ps₀ (fun hc => hke hc.symm) G hmem,
          by rw [hps, hfil]⟩
      · right
        exact ⟨fun hc => hnm (fst_subset_add e G hc), by rw [hps, hfil]⟩

theorem minimalAliasGo_eq_some (parts : List String)
    (entries : List ResourceEntry) :
    ∀ (r d j : Nat), d ≤ j → j < d + r →
      isUniqueCandidate entries j (candidateAt parts j) = true →
      (∀ i, d ≤ i → i < j →
        isUniqueCandidate entries i (candidateAt parts i) = false) →
      minimalAliasGo parts entries d r = some (candidateAt parts j)
  | 0, d, j, hdj, hjr, _, _ => absurd hjr (by omega)
  | r + 1, d, j, hdj, hjr, hu, hmin => by
    simp only [minimalAliasGo]
    by_cases hd : d = j
    · subst hd
      rw [if_pos hu]
    · have hlt : d < j := lt_of_le_of_ne hdj hd
      have hf := hmin d le_rfl hlt
      rw [if_neg (by simp [hf])]
      exact minimalAliasGo_eq_some parts entries r (d + 1) j (by omega)
        (by omega) hu (fun i h1 h2 => hmin i (by omega) h2)

theorem minimalAliasGo_eq_none (parts : List String)
    (entries : List ResourceEntry) :
    ∀ (r d : Nat),
      (∀ i, d ≤ i → i < d + r →
        isUniqueCandidate entries i (candidateAt parts i) = false) →
      minimalAliasGo parts entries d r = none
  | 0, _, _ => rfl
  | r + 1, d, h => by
    simp only [minimalAliasGo]
    rw [if_neg (by simp [h d le_rfl (by omega)])]
    exact minimalAliasGo_eq_none parts entries r (d + 1)
      (fun i h1 h2 => h i (by omega) (by omega))


/-- C7 (amended): a resource whose uppercased leaf name is unique among all
entries is aliased by the bare sanitized uppercased leaf; a resource in a
conflicting leaf group gets `compute_minimal_prefix`, whose search starts at
the full path and drops one leading segment at a time, so it returns the
candidate at the least drop count — the longest suffix — whose candidate is
unique, falling back to the sanitized uppercased full path; neither
minimality nor cross-entry uniqueness of the result is guaranteed. -/
theorem flat_alias_assignment
    (entries : List ResourceEntry) (e : ResourceEntry)
    (hmem : e ∈ entries)
    (hpath : ∀ x ∈ entries, x.fullPath = e.fullPath →
      leafUpper x = leafUpper e) :
    ((entries.filter
        (fun x => decide (leafUpper x = leafUpper e))).length = 1 →
      lookupAlias (computeMinimalAliases entries) e.fullPath
        = some (leafUpper e)) ∧
    (2 ≤ (entries.filter
        (fun x => decide (leafUpper x = leafUpper e))).length →
      lookupAlias (computeMinimalAliases entries) e.fullPath
        = some (computeMinimalAlias e.fullPath entries)) ∧
    (∀ (j : Nat), j < (splitPathParts e.fullPath).length →
      isUniqueCandidate entries j
        (candidateAt (splitPathParts e.fullPath) j) = true →
      (∀ i, i < j → isUniqueCandidate entries i
        (candidateAt (splitPathParts e.fullPath) i) = false) →
      computeMinimalAlias e.fullPath entries
        = candidateAt (splitPathParts e.fullPath) j) ∧
    ((∀ j, j < (splitPathParts e.fullPath).length →
      isUniqueCandidate entries j
        (candidateAt (splitPathParts e.fullPath) j) = false) →
      computeMinimalAlias e.fullPath entries
        = toUpperS (sanitizeIdentifier e.fullPath)) := by
  have hLG : leafGroups entries
      = entries.foldl (fun groups x => leafGroups.add x groups) [] := rfl
  have hLmem : leafUpper e ∈ (leafGroups entries).map Prod.fst := by
    rw [hLG]; exact foldl_add_exists entries [] e hmem
  obtain ⟨g, hgmem, hkeq⟩ := List.mem_map.mp hLmem
  obtain ⟨k, ps⟩ := g
  have hk : k = leafUpper e := hkeq
  subst hk
  have hnd : ((leafGroups entries).map Prod.fst).Nodup := by
    rw [hLG]; exact foldl_add_nodup entries [] (by simp)
  have hps : ps = (entries.filter
      (fun x => decide (leafUpper x = leafUpper e))).map
        (fun x => x.fullPath) := by
    rw [hLG] at hgmem
    rcases foldl_add_mem entries [] (by simp) (leafUpper e) ps hgmem with
      ⟨ps₀, hmem₀, _⟩ | ⟨_, h⟩
    · exact absurd hmem₀ (List.not_mem_nil _)
    · exact h
  have heF : e ∈ entries.filter
      (fun x => decide (leafUpper x = leafUpper e)) :=
    List.mem_filter.mpr ⟨hmem, by simp⟩
  have hpF : e.fullPath ∈ ps := by
    rw [hps]; exact List.mem_map_of_mem _ heF
  obtain ⟨gs₁, gs₂, hdec⟩ := List.append_of_mem hgmem
  have hLnotin : leafUpper e ∉ gs₂.map Prod.fst := by
    rw [hdec] at hnd
    simp only [List.map_append, List.map_cons] at hnd
    exact (List.nodup_cons.mp (List.nodup_append.mp hnd).2.1).1
  have hnotin : ∀ g ∈ gs₂, e.fullPath ∉ g.2 := by
    intro g hg hpg
    obtain ⟨k₂, ps₂⟩ := g
    have hgm : (k₂, ps₂) ∈ leafGroups entries := by
      rw [hdec]
      exact List.mem_append_right _ (List.mem_cons_of_mem _ hg)
    have hps₂ : ps₂ = (entries.filter
        (fun x => decide (leafUpper x = k₂))).map (fun x => x.fullPath) := by
      rw [hLG] at hgm
      rcases foldl_add_mem entries [] (by simp) k₂ ps₂ hgm with
        ⟨ps₀, hmem₀, _⟩ | ⟨_, h⟩
      · exact absurd hmem₀ (List.not_mem_nil _)
      · exact h
    rw [hps₂] at hpg
    obtain ⟨x, hxf, hxp⟩ := List.mem_map.mp hpg
    have hx := List.mem_filter.mp hxf
    have hxl : leafUpper x = k₂ := by simpa using hx.2
    have : leafUpper x = leafUpper e := hpath x hx.1 hxp
    rw [this] at hxl
    exact hLnotin (hxl ▸ List.mem_map_of_mem Prod.fst hg)
  have hCM : computeMinimalAliases entries
      = gs₂.foldl (aliasStep entries)
          (aliasStep entries ((gs₁.foldl (aliasStep entries) []))
            (leafUpper e, ps)) := by
    simp only [computeMinimalAliases]
    rw [hdec, List.foldl_append, List.foldl_cons]
  refine ⟨?_, ?_, ?_, ?_⟩
  · intro hlen
    have hF : entries.filter (fun x => decide (leafUpper x = leafUpper e))
        = [e] := by
      obtain ⟨b, hb⟩ := List.length_eq_one.mp hlen
      rw [hb] at heF ⊢
      rw [List.mem_singleton.mp heF]
    have hps1 : ps = [e.fullPath] := by rw [hps, hF]; rfl
    subst hps1
    rw [hCM, lookupAlias_groupsFoldl_not_mem entries e.fullPath gs₂ _ hnotin]
    show lookupAlias
      (upsertAlias (gs₁.foldl (aliasStep entries) []) e.fullPath
        (leafUpper e)) e.fullPath = some (leafUpper e)
    exact lookupAlias_upsert_self e.fullPath (leafUpper e) _
  · intro hlen
    have hlen' : 2 ≤ ps.length := by
      rw [hps, List.length_map]; exact hlen
    match ps, hpF, hlen', hCM with
    | q₁ :: q₂ :: qs, hpF, _, hCM =>
      rw [hCM, lookupAlias_groupsFoldl_not_mem entries e.fullPath gs₂ _
        hnotin]
      show lookupAlias ((q₁ :: q₂ :: qs).foldl
        (fun a path => upsertAlias a path (computeMinimalAlias path entries))
        (gs₁.foldl (aliasStep entries) [])) e.fullPath
        = some (computeMinimalAlias e.fullPath entries)
      exact lookupAlias_pathsFoldl_mem entries e.fullPath _ _ hpF
  · intro j hj hu hmin
    have hgo := minimalAliasGo_eq_some (splitPathParts e.fullPath) entries
      (splitPathParts e.fullPath).length 0 j (Nat.zero_le j) (by omega) hu
      (fun i _ h2 => hmin i h2)
    simp only [computeMinimalAlias]
    rw [hgo]
    rfl
  · intro hall
    have hgo := minimalAliasGo_eq_none (splitPathParts e.fullPath) entries
      (splitPathParts e.fullPath).length 0
      (fun i _ h2 => hall i (by omega))
    simp only [computeMinimalAlias]
    rw [hgo]
    rfl

/-- Counterexample to C7 as stated: for entries `app/ui/title` and
`menu/title` the produced alias is `APP_UI_TITLE` although the strictly
shorter suffix `UI_TITLE` (drop count 1) is also unique among all entries,
so the alias is not built from the shortest distinguishing suffix; and for a
`string` and an `int` resource both named `title` the alias map collapses to
the single colliding binding `TITLE`, so produced aliases are not unique. -/
theorem flat_alias_counterexample :
    (lookupAlias (computeMinimalAliases
        [mkEntry "string" "app/ui/title", mkEntry "string" "menu/title"])
        "app/ui/title" = some "APP_UI_TITLE" ∧
      isUniqueCandidate
        [mkEntry "string" "app/ui/title", mkEntry "string" "menu/title"] 1
        (candidateAt (splitPathParts "app/ui/title") 1) = true ∧
      candidateAt (splitPathParts "app/ui/title") 1 = "UI_TITLE") ∧
    computeMinimalAliases [mkEntry "string" "title", mkEntry "int" "title"]
      = [("title", "TITLE")] := by decide

/-- Witness for `flat_alias_assignment`: the conflicting-group conjunct at
the two-entry `title` leaf group. -/
theorem flat_alias_assignment_witness :
    (2 ≤ ([mkEntry "string" "app/ui/title",
        mkEntry "string" "menu/title"].filter
        (fun x => decide (leafUpper x
          = leafUpper (mkEntry "string" "app/ui/title")))).length) ∧
    lookupAlias (computeMinimalAliases
        [mkEntry "string" "app/ui/title", mkEntry "string" "menu/title"])
      (mkEntry "string" "app/ui/title").fullPath
      = some (computeMinimalAlias (mkEntry "string" "app/ui/title").fullPath
          [mkEntry "string" "app/ui/title", mkEntry "string" "menu/title"]) :=
  ⟨by decide,
    (flat_alias_assignment
      [mkEntry "string" "app/ui/title", mkEntry "string" "menu/title"]
      (mkEntry "string" "app/ui/title") (by decide) (by decide)).2.1
      (by decide)⟩


/-! ### Loader lemmas (C8) -/

theorem charsLt_asymm : ∀ (as bs : List Char),
    charsLt as bs = true → charsLt bs as = false
  | [], [], h => by simp [charsLt] at h
  | [], _ :: _, _ => rfl
  | _ :: _, [], h => by simp [charsLt] at h
  | a :: as, b :: bs, h => by
    by_cases hab : a < b
    · have hba : ¬b < a := lt_asymm hab
      simp only [charsLt, if_neg hba, if_pos hab]
    · by_cases hba : b < a
      · simp only [charsLt, if_neg hab, if_pos hba] at h
        exact absurd h (by simp)
      · simp only [charsLt, if_neg hab, if_neg hba] at h
        simp only [charsLt, if_neg hba, if_neg hab]
        exact charsLt_asymm as bs h

theorem strLt_asymm (a b : String) (h : strLt a b = true) :
    strLt b a = false :=
  charsLt_asymm a.toList b.toList h

theorem chain_insertSortedString_of_le (x : String) :
    ∀ (y : String) (ys : List String),
      List.Chain' (fun a b => strLt b a = false) (y :: ys) →
      strLt x y = false →
      List.Chain' (fun a b => strLt b a = false)
        (y :: insertSortedString x ys)
  | y, [], _, hxy => by
    simp [insertSortedString, List.chain'_cons, hxy]
  | y, z :: zs, hch, hxy => by
    rw [List.chain'_cons] at hch
    by_cases hxz : strLt x z = true
    · rw [show insertSortedString x (z :: zs) = x :: z :: zs
        from by simp [insertSortedString, hxz]]
      rw [List.chain'_cons, List.chain'_cons]
      exact ⟨hxy, strLt_asymm x z hxz, hch.2⟩
    · rw [show insertSortedString x (z :: zs) = z :: insertSortedString x zs
        from by simp [insertSortedString, hxz]]
      rw [List.chain'_cons]
      exact ⟨hch.1, chain_insertSortedString_of_le x z zs hch.2
        (Bool.eq_false_iff.mpr hxz)⟩

theorem chain_insertSortedString (x : String) :
    ∀ (ys : List String),
      List.Chain' (fun a b => strLt b a = false) ys →
      List.Chain' (fun a b => strLt b a = false) (insertSortedString x ys)
  | [], _ => List.chain'_singleton x
  | y :: ys, hch => by
    by_cases hxy : strLt x y = true
    · rw [show insertSortedString x (y :: ys) = x :: y :: ys
        from by simp [insertSortedString, hxy]]
      rw [List.chain'_cons]
      exact ⟨strLt_asymm x y hxy, hch⟩
    · rw [show insertSortedString x (y :: ys) = y :: insertSortedString x ys
        from by simp [insertSortedString, hxy]]
      exact chain_insertSortedString_of_le x y ys hch
        (Bool.eq_false_iff.mpr hxy)

theorem sortStrings_chain (l : List String) :
    List.Chain' (fun a b => strLt b a = false) (sortStrings l) := by
  induction l with
  | nil => exact List.chain'_nil
  | cons a l ih => exact chain_insertSortedString a (sortStrings l) ih

theorem insertSortedString_perm (x : String) :
    ∀ (ys : List String), (insertSortedString x ys).Perm (x :: ys)
  | [] => List.Perm.refl _
  | y :: ys => by
    by_cases hxy : strLt x y = true
    · rw [show insertSortedString x (y :: ys) = x :: y :: ys
        from by simp [insertSortedString, hxy]]
    · rw [show insertSortedString x (y :: ys) = y :: insertSortedString x ys
        from by simp [insertSortedString, hxy]]
      exact (List.Perm.cons y (insertSortedString_perm x ys)).trans
        (List.Perm.swap x y ys)

theorem sortStrings_perm (l : List String) : (sortStrings l).Perm l := by
  induction l with
  | nil => exact List.Perm.refl _
  | cons a l ih =>
    exact (insertSortedString_perm a (sortStrings l)).trans
      (List.Perm.cons a ih)

theorem loadFilesAt_ok (entries : List FsEntry) (isTest : Bool)
    (profile : String) :
    ∀ (paths : List String) (files : List RawResourceFile),
      loadFilesAt entries isTest profile paths = .ok files →
      files.map (fun f => f.path) = paths ∧
      ∀ f ∈ files, f.isTest = isTest ∧
        ∃ ent, entries.find? (fun e => e.path = f.path) = some ent ∧
          ∃ raw, ent.contents = .ok raw ∧
            f.contents = preprocessXml raw profile ent.events
  | [], files, h => by
    simp only [loadFilesAt, Except.ok.injEq] at h
    subst h
    exact ⟨rfl, fun f hf => absurd hf (List.not_mem_nil f)⟩
  | path :: rest, files, h => by
    simp only [loadFilesAt] at h
    cases hfind : entries.find? (fun e => e.path = path) with
    | none => simp only [hfind] at h; exact absurd h (by simp)
    | some ent =>
      simp only [hfind] at h
      cases hc : ent.contents with
      | error u => simp only [hc] at h; exact absurd h (by simp)
      | ok raw =>
        simp only [hc] at h
        cases hrec : loadFilesAt entries isTest profile rest with
        | error err => simp only [hrec] at h; exact absurd h (by simp)
        | ok fs =>
          simp only [hrec, Except.ok.injEq] at h
          subst h
          obtain ⟨hmap, hmem⟩ := loadFilesAt_ok entries isTest profile
            rest fs hrec
          refine ⟨by simp [hmap], ?_⟩
          intro f hf
          rcases List.mem_cons.mp hf with hf | hf
          · subst hf
            exact ⟨rfl, ent, hfind, raw, hc, rfl⟩
          · exact hmem f hf

/-- C8: over the abstract file-system plan, loading fails with
`MissingDirectory` when the strict root directory is absent, with
`NoXmlFilesFound` when it exists but holds no XML files, and with `Io` when
reading the first collected file fails; a successful load returns exactly
the collected XML files in collection order with `is_test = false` and the
profile-preprocessed contents of each file; the collected path list is
sorted (no adjacent inversion under the string order) and is a permutation
of the directory's XML regular files; and an absent non-strict
test-resources directory is no error and contributes no files. -/
theorem loader_contract (plan : PlanFs) :
    (plan.resourcesDir = none →
      loadResources plan
        = .error (.missingDirectory plan.resourcesDirPath)) ∧
    (∀ entries, plan.resourcesDir = some entries →
      collectXmlFiles entries = [] →
      loadResources plan
        = .error (.noXmlFilesFound plan.resourcesDirPath)) ∧
    (∀ entries path rest ent, plan.resourcesDir = some entries →
      collectXmlFiles entries = path :: rest →
      entries.find? (fun e => e.path = path) = some ent →
      ent.contents = .error () →
      loadResources plan = .error (.io path)) ∧
    (∀ entries files, plan.resourcesDir = some entries →
      plan.testsResourcesDir = none →
      loadResources plan = .ok files →
      files.map (fun f => f.path) = collectXmlFiles entries ∧
      ∀ f ∈ files, f.isTest = false ∧
        ∃ ent, entries.find? (fun e => e.path = f.path) = some ent ∧
          ∃ raw, ent.contents = .ok raw ∧
            f.contents = preprocessXml raw plan.profile ent.events) ∧
    (∀ entries : List FsEntry,
      List.Chain' (fun a b => strLt b a = false)
        (collectXmlFiles entries) ∧
      (collectXmlFiles entries).Perm
        ((entries.filter (fun e => e.isFile ∧ e.isXml)).map
          (fun e => e.path))) ∧
    (∀ testsPath, plan.testsResourcesDir = some (testsPath, none) →
      loadResources plan
        = loadResources ⟨plan.resourcesDirPath, plan.resourcesDir, none,
            plan.profile⟩) := by
  obtain ⟨rp, rd, td, prof⟩ := plan
  refine ⟨?_, ?_, ?_, ?_, ?_, ?_⟩
  · intro h
    subst h
    rfl
  · intro entries h hcol
    subst h
    simp [loadResources, loadDirectory, hcol]
  · intro entries path rest ent h hcol hfind hc
    subst h
    simp [loadResources, loadDirectory, hcol, loadFilesAt, hfind, hc]
  · intro entries files h htd hok
    subst h
    subst htd
    simp only [loadResources, loadDirectory] at hok
    cases hemp : (collectXmlFiles entries).isEmpty with
    | true => rw [hemp] at hok; simp at hok
    | false =>
      rw [hemp] at hok
      simp only [Bool.false_eq_true, if_false] at hok
      cases hld : loadFilesAt entries false prof (collectXmlFiles entries)
        with
      | error err => rw [hld] at hok; simp at hok
      | ok fs =>
        rw [hld] at hok
        simp only [Except.ok.injEq] at hok
        subst hok
        exact loadFilesAt_ok entries false prof _ fs hld
  · intro entries
    exact ⟨sortStrings_chain _, sortStrings_perm _⟩
  · intro tp h
    subst h
    cases hld : loadDirectory rp rd false prof true with
    | error err => simp [loadResources, hld]
    | ok fs => simp [loadResources, hld]

/-- Witness for `loader_contract`: a two-file directory loads in sorted
order, and a missing root directory is a `MissingDirectory` error. -/
theorem loader_contract_witness :
    ([(⟨"a.xml", "", false⟩ : RawResourceFile),
      ⟨"b.xml", "", false⟩].map (fun f => f.path)
        = collectXmlFiles
            [⟨"b.xml", true, true, .ok "<x/>", []⟩,
             ⟨"a.xml", true, true, .ok "<y/>", []⟩]) ∧
    loadResources ⟨"res", none, none, "debug"⟩
      = .error (.missingDirectory "res") :=
  ⟨((loader_contract ⟨"res",
      some [⟨"b.xml", true, true, .ok "<x/>", []⟩,
            ⟨"a.xml", true, true, .ok "<y/>", []⟩],
      none, "debug"⟩).2.2.2.1
      [⟨"b.xml", true, true, .ok "<x/>", []⟩,
       ⟨"a.xml", true, true, .ok "<y/>", []⟩]
      [⟨"a.xml", "", false⟩, ⟨"b.xml", "", false⟩]
      rfl rfl (by decide)).1,
    (loader_contract ⟨"res", none, none, "debug"⟩).1 rfl⟩

end RRes
